import Mathlib

/-!
# Verification of the value-stringification engine (`src/analyze/values/stringify.js`)

This file gives a shallow embedding of the canonical stringification engine of
the symbolic-value layer: the `Value` variant type, the explicit
compute/reduce state machine with its frame stack, the recursion cutoff
(`BlockRecursionProps`), the identity-keyed string cache, and the two
companion helpers `stringifyStackValues` and `stringifyCall`.

Modelling decisions:

* The five leaf variants (`AnyValue`, `DataValue`, `LiteralValue`,
  `ErrorValue`, `BuiltinValue`) are only ever observed by the engine through
  their `toString()`; their classes are not part of the stringifier source,
  so each leaf constructor carries its rendered string directly.
* The source checks `value instanceof ...` against a closed list and throws
  on anything else; the constructor `Value.unknown` stands for any object
  outside the eight sealed variants, and the engine's `throw` is modelled as
  an `Except.error`.
* JavaScript's unbounded `while (true)` loop is modelled by a fuel-indexed
  step function `loopN`; `none` means the fuel ran out (the loop would still
  be running), so termination statements are existentials over fuel.
* The `Map<Value, string>` cache keyed by object identity is modelled as an
  association list keyed by structural equality (`Value.beq`); in a tree
  embedding structural equality is the available notion of instance
  identity.  `Map.set` is modelled by consing (lookup returns the most
  recent binding, which matches overwrite-on-set semantics).
* The source guard `if (cached)` makes an empty cached string falsy; the
  embedding keeps that behaviour (`cacheHit`).
-/

namespace HeliosIR

/-- The sealed value variants visible to the stringifier, plus `unknown`
standing for any object that is none of the eight.  Leaf constructors carry
the string produced by their `toString()`. -/
inductive Value where
  | any (s : String)
  | data (s : String)
  | literal (s : String)
  | error (s : String)
  | builtin (s : String)
  | maybeError (inner : Value)
  | branched (pre : String) (condition : Value) (cases : List Value)
  | func (definitionTag : Nat) (stack : List (String × Value))
  | unknown

mutual

/-- Structural equality on values, standing in for JavaScript object
identity of the tree nodes (the `Map` cache key relation). -/
def Value.beq : Value → Value → Bool
  | .any a, .any b => a == b
  | .data a, .data b => a == b
  | .literal a, .literal b => a == b
  | .error a, .error b => a == b
  | .builtin a, .builtin b => a == b
  | .maybeError a, .maybeError b => Value.beq a b
  | .branched p c cs, .branched q d ds => p == q && Value.beq c d && Value.beqList cs ds
  | .func t s, .func u r => t == u && Value.beqStack s r
  | .unknown, .unknown => true
  | _, _ => false

/-- `Value.beq` lifted to lists of values. -/
def Value.beqList : List Value → List Value → Bool
  | [], [] => true
  | a :: as, b :: bs => Value.beq a b && Value.beqList as bs
  | _, _ => false

/-- `Value.beq` lifted to stacks of `(bindingId, value)` pairs. -/
def Value.beqStack : List (String × Value) → List (String × Value) → Bool
  | [], [] => true
  | (i, a) :: as, (j, b) :: bs => i == j && Value.beq a b && Value.beqStack as bs
  | _, _ => false

end

/-- Recursion cutoff configuration: `{tag: number, maxDepth: number}`. -/
structure BlockRecursionProps where
  tag : Nat
  maxDepth : Nat
  deriving DecidableEq

/-- A pending computation of the machine: a value together with the depth
recorded for it (`ComputeItem` in the source). -/
structure ComputeItem where
  value : Value
  depth : Nat

/-- The machine state: either about to stringify a value at a depth, or
carrying the just-produced string upward (`compute` / `reduce`). -/
inductive MState where
  | compute (item : ComputeItem)
  | reduce (item : String)

/-- The combinator closure stored in a frame, reified as data: which
composite variant owns the frame, with the display data its `fn` captured. -/
inductive FrameKind where
  | maybeError
  | branched (pre : String)
  | func (definitionTag : Nat) (ids : List String)

/-- A frame of the explicit stack: the owning value (used as cache key), the
children still to be stringified, the strings collected so far, and the
combinator. -/
structure Frame where
  owner : Value
  values : List ComputeItem
  stringifiedValues : List String
  kind : FrameKind

/-- The identity-keyed string cache, `Map<Value, string>`. -/
abbrev Cache := List (Value × String)

/-- `cache.get(value)`: the most recently set binding for this value. -/
def cacheGet (m : Cache) (v : Value) : Option String :=
  (m.find? (fun p => Value.beq p.1 v)).map Prod.snd

/-- `cache.set(key, s)`: overwrite-on-set, modelled by shadowing. -/
def cacheSet (m : Cache) (k : Value) (s : String) : Cache :=
  (k, s) :: m

/-- The source guard `const cached = cache?.get(value); if (cached) ...`:
a hit requires a cache, a present binding, and a *truthy* (non-empty)
string. -/
def cacheHit (cache : Option Cache) (v : Value) : Option String :=
  match cache with
  | none => none
  | some m =>
    match cacheGet m v with
    | none => none
    | some s => if s == "" then none else some s

/-- `blockRecursion && value.definitionTag == blockRecursion.tag`. -/
def matchesTag (br : Option BlockRecursionProps) (tag : Nat) : Bool :=
  match br with
  | none => false
  | some b => tag == b.tag

/-- The recursion-cutoff condition of the `FuncValue` branch:
`blockRecursion && tag == blockRecursion.tag && depth == blockRecursion.maxDepth`. -/
def cutoffHit (br : Option BlockRecursionProps) (tag : Nat) (depth : Nat) : Bool :=
  match br with
  | none => false
  | some b => tag == b.tag && depth == b.maxDepth

/-- `Array.join(sep)` of JavaScript. -/
def joinSep (sep : String) : List String → String
  | [] => ""
  | x :: xs => xs.foldl (fun acc s => acc ++ sep ++ s) x

/-- The children a composite value contributes to its frame, each with its
recorded depth: the inner value of a `MaybeErrorValue` at the same depth,
condition and cases of a `BranchedValue` at the same depth, and the captured
binding values of a `FuncValue` at `depth + 1` exactly when the definition
tag matches the cutoff tag. -/
def frameChildItems (br : Option BlockRecursionProps) (v : Value) (depth : Nat) :
    List ComputeItem :=
  match v with
  | .maybeError inner => [⟨inner, depth⟩]
  | .branched _ condition cases => ⟨condition, depth⟩ :: cases.map (fun c => ⟨c, depth⟩)
  | .func tag stack =>
    let newDepth := if matchesTag br tag then depth + 1 else depth
    stack.map (fun p => ⟨p.2, newDepth⟩)
  | _ => []

/-- The reified frame combinator `fn`.

* `MaybeErrorValue`: `"(" + items[0] + " | Error)"`;
* `BranchedValue`: `prefixText + "(" + items[0] + ", " + rest.join(", ") + ")"`;
* `FuncValue`: `"Fn" + tag + "[" + items.map((item, i) => ids[i] + ": " + item).join(", ") + "]"`. -/
def combine : FrameKind → List String → String
  | .maybeError, items => "(" ++ items.headD "" ++ " | Error)"
  | .branched pre, items =>
    pre ++ "(" ++ items.headD "" ++ ", " ++ joinSep ", " (items.drop 1) ++ ")"
  | .func tag ids, items =>
    "Fn" ++ Nat.repr tag ++ "[" ++
      joinSep ", " (List.zipWith (fun id item => id ++ ": " ++ item) ids items) ++ "]"

/-- One fuel-indexed run of the `while (true)` loop of `stringifyValue`.
`none` means the fuel ran out before the loop finished; `some (.error e)`
models a `throw`; `some (.ok (st, cache))` is the `break`, carrying the
state at exit (the loop only breaks from a `reduce` state with an empty
frame stack) and the cache. -/
def loopN (br : Option BlockRecursionProps) :
    Nat → MState → List Frame → Option Cache →
    Option (Except String (MState × Option Cache))
  | 0, _, _, _ => none
  | fuel + 1, .compute item, frames, cache =>
    match cacheHit cache item.value with
    | some cached => loopN br fuel (.reduce cached) frames cache
    | none =>
      match item.value with
      | .any s | .data s | .literal s | .error s | .builtin s =>
        loopN br fuel (.reduce s) frames cache
      | .maybeError inner =>
        loopN br fuel (.compute ⟨inner, item.depth⟩)
          (⟨.maybeError inner, frameChildItems br (.maybeError inner) item.depth, [],
            .maybeError⟩ :: frames) cache
      | .branched pre condition cases =>
        loopN br fuel (.compute ⟨condition, item.depth⟩)
          (⟨.branched pre condition cases,
            frameChildItems br (.branched pre condition cases) item.depth, [],
            .branched pre⟩ :: frames) cache
      | .func tag stack =>
        if cutoffHit br tag item.depth then
          loopN br fuel (.reduce ("Fn" ++ Nat.repr tag)) frames cache
        else
          match stack with
          | [] => loopN br fuel (.reduce ("Fn" ++ Nat.repr tag ++ "[]")) frames cache
          | (_, v0) :: _ =>
            loopN br fuel
              (.compute ⟨v0, if matchesTag br tag then item.depth + 1 else item.depth⟩)
              (⟨.func tag stack, frameChildItems br (.func tag stack) item.depth, [],
                .func tag (stack.map Prod.fst)⟩ :: frames) cache
      | .unknown => some (.error "unhandled value type")
  | fuel + 1, .reduce s, frames, cache =>
    match frames with
    | [] => some (.ok (.reduce s, cache))
    | frame :: rest =>
      let strs := frame.stringifiedValues ++ [s]
      if strs.length == frame.values.length then
        let out := combine frame.kind strs
        loopN br fuel (.reduce out) rest (cache.map (fun m => cacheSet m frame.owner out))
      else
        match frame.values[strs.length]? with
        | some nextValue =>
          loopN br fuel (.compute nextValue)
            (⟨frame.owner, frame.values, strs, frame.kind⟩ :: rest) cache
        | none => none

/-- `stringifyValue(value, blockRecursion, cache)` with fuel `n`: run the
machine from `compute (value, 0)` with an empty frame stack; afterwards the
source checks that the exit state is a `reduce` and returns its string
(throwing `"unexpected"` otherwise — the loop can in fact only break from a
`reduce`). -/
def stringifyValue (n : Nat) (value : Value) (br : Option BlockRecursionProps)
    (cache : Option Cache) : Option (Except String (String × Option Cache)) :=
  match loopN br n (.compute ⟨value, 0⟩) [] cache with
  | none => none
  | some (.error e) => some (.error e)
  | some (.ok (st, c)) =>
    match st with
    | .reduce s => some (.ok (s, c))
    | .compute _ => some (.error "unexpected")

/-- `stringifyStackValues(values, blockRecursion, cache)` maps each binding
to `id + ": " + stringifyValue(v, blockRecursion, cache)` — the bindings
share one mutable cache, modelled by threading it left to right — and the
result is `"[" + items.join(", ") + "]"`.  `stackItems` is the mapping
part (the bracketing lives in `stringifyStackValues`). -/
def stackItems (n : Nat) :
    List (String × Value) → BlockRecursionProps → Option Cache →
    Option (Except String (List String × Option Cache))
  | [], _, c => some (.ok ([], c))
  | (id, v) :: rest, br, c =>
    match stringifyValue n v (some br) c with
    | none => none
    | some (.error e) => some (.error e)
    | some (.ok (s, c1)) =>
      match stackItems n rest br c1 with
      | none => none
      | some (.error e) => some (.error e)
      | some (.ok (items, c2)) => some (.ok ((id ++ ": " ++ s) :: items, c2))

/-- `stringifyStackValues` itself (fuel `n` is given to each per-value
run of the engine). -/
def stringifyStackValues (n : Nat) (values : List (String × Value))
    (blockRecursion : BlockRecursionProps) (cache : Option Cache) :
    Option (Except String (String × Option Cache)) :=
  match stackItems n values blockRecursion cache with
  | none => none
  | some (.error e) => some (.error e)
  | some (.ok (items, c)) => some (.ok ("[" ++ joinSep ", " items ++ "]", c))

/-- `stringifyCall(fn, args)`: plain formatting from each operand's own
`toString`.  The `toString` methods of the value classes are not part of
the stringifier source, so the operand renderer is a parameter. -/
def stringifyCall (ts : Value → String) (fn : Value) (args : List Value) : String :=
  ts fn ++ "(" ++ joinSep ", " (args.map ts) ++ ")"

mutual

/-- The structural rendering the machine computes: a direct recursive
restatement of the per-variant stringification (cache-free).  `none` means
the traversal reaches a value outside the eight sealed variants (where the
machine throws). -/
def stringifySpec (br : Option BlockRecursionProps) (depth : Nat) : Value → Option String
  | .any s => some s
  | .data s => some s
  | .literal s => some s
  | .error s => some s
  | .builtin s => some s
  | .maybeError inner =>
    match stringifySpec br depth inner with
    | some s => some ("(" ++ s ++ " | Error)")
    | none => none
  | .branched pre condition cases =>
    match stringifySpec br depth condition, stringifySpecList br depth cases with
    | some c, some cs => some (pre ++ "(" ++ c ++ ", " ++ joinSep ", " cs ++ ")")
    | _, _ => none
  | .func tag stack =>
    if cutoffHit br tag depth then some ("Fn" ++ Nat.repr tag)
    else
      match stack with
      | [] => some ("Fn" ++ Nat.repr tag ++ "[]")
      | _ :: _ =>
        match stringifySpecStack br (if matchesTag br tag then depth + 1 else depth) stack with
        | some items => some ("Fn" ++ Nat.repr tag ++ "[" ++ joinSep ", " items ++ "]")
        | none => none
  | .unknown => none

/-- `stringifySpec` over the case list of a `BranchedValue`. -/
def stringifySpecList (br : Option BlockRecursionProps) (depth : Nat) :
    List Value → Option (List String)
  | [] => some []
  | v :: rest =>
    match stringifySpec br depth v, stringifySpecList br depth rest with
    | some s, some ss => some (s :: ss)
    | _, _ => none

/-- `stringifySpec` over a captured environment, already formatted as
`id + ": " + s` entries. -/
def stringifySpecStack (br : Option BlockRecursionProps) (depth : Nat) :
    List (String × Value) → Option (List String)
  | [] => some []
  | (id, v) :: rest =>
    match stringifySpec br depth v, stringifySpecStack br depth rest with
    | some s, some ss => some ((id ++ ": " ++ s) :: ss)
    | _, _ => none

end

/-- The strings of a list of pending compute items, each rendered by the
cutoff-free structural spec (the form cached strings take). -/
def specItems : List ComputeItem → Option (List String)
  | [] => some []
  | it :: rest =>
    match stringifySpec none 0 it.value, specItems rest with
    | some s, some ss => some (s :: ss)
    | _, _ => none

/-- The strings of pending compute items under a cutoff, each at its own
recorded depth (the cache-free machine's intermediate results). -/
def specItemsAt (br : Option BlockRecursionProps) : List ComputeItem → Option (List String)
  | [] => some []
  | it :: rest =>
    match stringifySpec br it.depth it.value, specItemsAt br rest with
    | some s, some ss => some (s :: ss)
    | _, _ => none

mutual

/-- A value graph built only from the eight sealed variants. -/
def Value.sealed : Value → Bool
  | .any _ => true
  | .data _ => true
  | .literal _ => true
  | .error _ => true
  | .builtin _ => true
  | .maybeError inner => inner.sealed
  | .branched _ condition cases => condition.sealed && Value.sealedList cases
  | .func _ stack => Value.sealedStack stack
  | .unknown => false

/-- `Value.sealed` over a case list. -/
def Value.sealedList : List Value → Bool
  | [] => true
  | v :: rest => v.sealed && Value.sealedList rest

/-- `Value.sealed` over a captured environment. -/
def Value.sealedStack : List (String × Value) → Bool
  | [] => true
  | (_, v) :: rest => v.sealed && Value.sealedStack rest

end

mutual

/-- Does the graph contain a `FuncValue` with definition tag `t`? -/
def containsFuncTag (t : Nat) : Value → Bool
  | .maybeError inner => containsFuncTag t inner
  | .branched _ condition cases => containsFuncTag t condition || containsFuncTagList t cases
  | .func tag stack => tag == t || containsFuncTagStack t stack
  | _ => false

/-- `containsFuncTag` over a case list. -/
def containsFuncTagList (t : Nat) : List Value → Bool
  | [] => false
  | v :: rest => containsFuncTag t v || containsFuncTagList t rest

/-- `containsFuncTag` over a captured environment. -/
def containsFuncTagStack (t : Nat) : List (String × Value) → Bool
  | [] => false
  | (_, v) :: rest => containsFuncTag t v || containsFuncTagStack t rest

end

mutual

/-- The cutoff placeholder is never produced while rendering `v` at
`depth`: at every `FuncValue` reached, the cutoff condition is false.
This is the precise meaning of a `maxDepth` "large enough never to be
reached" (true of every graph when no cutoff is configured). -/
def noCutoffHit (br : Option BlockRecursionProps) (depth : Nat) : Value → Bool
  | .maybeError inner => noCutoffHit br depth inner
  | .branched _ condition cases =>
    noCutoffHit br depth condition && noCutoffHitList br depth cases
  | .func tag stack =>
    !cutoffHit br tag depth &&
      noCutoffHitStack br (if matchesTag br tag then depth + 1 else depth) stack
  | _ => true

/-- `noCutoffHit` over a case list. -/
def noCutoffHitList (br : Option BlockRecursionProps) (depth : Nat) : List Value → Bool
  | [] => true
  | v :: rest => noCutoffHit br depth v && noCutoffHitList br depth rest

/-- `noCutoffHit` over a captured environment. -/
def noCutoffHitStack (br : Option BlockRecursionProps) (depth : Nat) :
    List (String × Value) → Bool
  | [] => true
  | (_, v) :: rest => noCutoffHit br depth v && noCutoffHitStack br depth rest

end

mutual

/-- The largest depth parameter the rendering of `v` started at `depth`
ever passes to a subcomputation. -/
def maxDepthUsed (br : Option BlockRecursionProps) (depth : Nat) : Value → Nat
  | .maybeError inner => maxDepthUsed br depth inner
  | .branched _ condition cases =>
    max (maxDepthUsed br depth condition) (maxDepthUsedList br depth cases)
  | .func tag stack =>
    if cutoffHit br tag depth then depth
    else maxDepthUsedStack br (if matchesTag br tag then depth + 1 else depth) stack
  | _ => depth

/-- `maxDepthUsed` over a case list. -/
def maxDepthUsedList (br : Option BlockRecursionProps) (depth : Nat) : List Value → Nat
  | [] => depth
  | v :: rest => max (maxDepthUsed br depth v) (maxDepthUsedList br depth rest)

/-- `maxDepthUsed` over a captured environment. -/
def maxDepthUsedStack (br : Option BlockRecursionProps) (depth : Nat) :
    List (String × Value) → Nat
  | [] => depth
  | (_, v) :: rest => max (maxDepthUsed br depth v) (maxDepthUsedStack br depth rest)

end

/-- Every binding of the cache maps a value to its cutoff-free structural
rendering (the invariant the engine maintains on a supplied cache). -/
def CacheOK (c : Cache) : Prop :=
  ∀ p ∈ c, stringifySpec none 0 p.1 = some p.2

/-- Induction over the value tree with member hypotheses for the nested
lists. -/
theorem Value.myInduction (motive : Value → Prop)
    (hany : ∀ s, motive (.any s))
    (hdata : ∀ s, motive (.data s))
    (hliteral : ∀ s, motive (.literal s))
    (herror : ∀ s, motive (.error s))
    (hbuiltin : ∀ s, motive (.builtin s))
    (hmaybe : ∀ inner, motive inner → motive (.maybeError inner))
    (hbranched : ∀ pre condition cases, motive condition →
      (∀ c ∈ cases, motive c) → motive (.branched pre condition cases))
    (hfunc : ∀ tag stack, (∀ p ∈ stack, motive (Prod.snd p)) → motive (.func tag stack))
    (hunknown : motive .unknown) : ∀ v, motive v
  | .any s => hany s
  | .data s => hdata s
  | .literal s => hliteral s
  | .error s => herror s
  | .builtin s => hbuiltin s
  | .maybeError inner =>
    hmaybe inner
      (Value.myInduction motive hany hdata hliteral herror hbuiltin hmaybe hbranched
        hfunc hunknown inner)
  | .branched pre condition cases =>
    hbranched pre condition cases
      (Value.myInduction motive hany hdata hliteral herror hbuiltin hmaybe hbranched
        hfunc hunknown condition)
      (fun c hc =>
        Value.myInduction motive hany hdata hliteral herror hbuiltin hmaybe hbranched
          hfunc hunknown c)
  | .func tag stack =>
    hfunc tag stack
      (fun p hp =>
        Value.myInduction motive hany hdata hliteral herror hbuiltin hmaybe hbranched
          hfunc hunknown p.2)
  | .unknown => hunknown
termination_by v => sizeOf v
decreasing_by
· simp only [Value.maybeError.sizeOf_spec]; omega
· simp only [Value.branched.sizeOf_spec]; omega
· have := List.sizeOf_lt_of_mem hc
  simp only [Value.branched.sizeOf_spec]
  omega
· have h1 := List.sizeOf_lt_of_mem hp
  have h2 : sizeOf p.2 < sizeOf p := by cases p; simp
  simp only [Value.func.sizeOf_spec]
  omega

/-- Soundness of `Value.beqList`, given soundness for its members. -/
theorem Value.beqList_sound : ∀ (cs ds : List Value),
    (∀ x ∈ cs, ∀ b, Value.beq x b = true → x = b) →
    Value.beqList cs ds = true → cs = ds := by
  intro cs
  induction cs with
  | nil => intro ds _ h; cases ds <;> simp [Value.beqList] at h ⊢
  | cons x rest ih =>
    intro ds hmem h
    cases ds with
    | nil => simp [Value.beqList] at h
    | cons y ys =>
      simp only [Value.beqList, Bool.and_eq_true] at h
      have hx := hmem x (by simp) y h.1
      have hrest := ih ys (fun z hz b hb => hmem z (by simp [hz]) b hb) h.2
      rw [hx, hrest]

/-- Soundness of `Value.beqStack`, given soundness for the bound values. -/
theorem Value.beqStack_sound : ∀ (s r : List (String × Value)),
    (∀ p ∈ s, ∀ b, Value.beq p.2 b = true → p.2 = b) →
    Value.beqStack s r = true → s = r := by
  intro s
  induction s with
  | nil => intro r _ h; cases r <;> simp [Value.beqStack] at h ⊢
  | cons p rest ih =>
    intro r hmem h
    cases r with
    | nil =>
      cases p
      simp [Value.beqStack] at h
    | cons q qs =>
      obtain ⟨i, a⟩ := p
      obtain ⟨j, b⟩ := q
      simp only [Value.beqStack, Bool.and_eq_true, beq_iff_eq] at h
      have ha : a = b := hmem (i, a) (by simp) b h.1.2
      have hrest := ih qs (fun z hz c hc => hmem z (by simp [hz]) c hc) h.2
      rw [h.1.1, ha, hrest]

/-- `Value.beq` is sound: structural-equality hits identify equal trees. -/
theorem Value.beq_sound : ∀ (a b : Value), Value.beq a b = true → a = b := by
  intro a
  induction a using Value.myInduction with
  | hany s => intro b h; cases b <;> simp_all [Value.beq]
  | hdata s => intro b h; cases b <;> simp_all [Value.beq]
  | hliteral s => intro b h; cases b <;> simp_all [Value.beq]
  | herror s => intro b h; cases b <;> simp_all [Value.beq]
  | hbuiltin s => intro b h; cases b <;> simp_all [Value.beq]
  | hunknown => intro b h; cases b <;> simp_all [Value.beq]
  | hmaybe inner ih =>
    intro b h
    cases b <;> simp only [Value.beq] at h
    all_goals try exact (Bool.false_ne_true h).elim
    case maybeError inner2 => rw [ih inner2 h]
  | hbranched pre condition cases ihc ihs =>
    intro b h
    cases b <;> simp only [Value.beq] at h
    all_goals try exact (Bool.false_ne_true h).elim
    case branched q d ds =>
      simp only [Bool.and_eq_true, beq_iff_eq] at h
      rw [h.1.1, ihc d h.1.2, Value.beqList_sound cases ds ihs h.2]
  | hfunc tag stack ihs =>
    intro b h
    cases b <;> simp only [Value.beq] at h
    all_goals try exact (Bool.false_ne_true h).elim
    case func u r =>
      simp only [Bool.and_eq_true, beq_iff_eq] at h
      rw [h.1, Value.beqStack_sound stack r ihs h.2]

/-- Fuel monotonicity: a finished run stays finished (with the same
result) when given one more unit of fuel. -/
theorem loopN_mono (br : Option BlockRecursionProps) :
    ∀ (n : Nat) (st : MState) (frames : List Frame) (cache : Option Cache) r,
    loopN br n st frames cache = some r →
    loopN br (n + 1) st frames cache = some r := by
  intro n
  induction n with
  | zero => intro st frames cache r h; simp [loopN] at h
  | succ n ih =>
    intro st frames cache r h
    match st with
    | .compute item =>
      obtain ⟨v, depth⟩ := item
      simp only [loopN] at h ⊢
      cases hc : cacheHit cache v with
      | some cached => simp only [hc] at h ⊢; exact ih _ _ _ _ h
      | none =>
        simp only [hc] at h ⊢
        cases v with
        | any s => exact ih _ _ _ _ h
        | data s => exact ih _ _ _ _ h
        | literal s => exact ih _ _ _ _ h
        | error s => exact ih _ _ _ _ h
        | builtin s => exact ih _ _ _ _ h
        | maybeError inner => exact ih _ _ _ _ h
        | branched pre condition cases => exact ih _ _ _ _ h
        | func tag stack =>
          simp only at h ⊢
          by_cases hcut : cutoffHit br tag depth
          · simp only [hcut, if_true] at h ⊢
            exact ih _ _ _ _ h
          · simp only [hcut, if_false] at h ⊢
            cases stack with
            | nil => exact ih _ _ _ _ h
            | cons p rest =>
              obtain ⟨id, v0⟩ := p
              exact ih _ _ _ _ h
        | unknown => exact h
    | .reduce s =>
      simp only [loopN] at h ⊢
      cases frames with
      | nil => exact h
      | cons frame rest =>
        simp only at h ⊢
        by_cases hlen :
            (frame.stringifiedValues ++ [s]).length == frame.values.length
        · simp only [hlen, if_true] at h ⊢
          exact ih _ _ _ _ h
        · simp only [hlen, Bool.false_eq_true, if_false] at h ⊢
          cases hget : frame.values[(frame.stringifiedValues ++ [s]).length]? with
          | some nextValue =>
            simp only [hget] at h ⊢
            exact ih _ _ _ _ h
          | none => simp only [hget] at h; exact absurd h (by simp)

/-- Fuel monotonicity, iterated to any larger amount. -/
theorem loopN_mono_le (br : Option BlockRecursionProps)
    (n m : Nat) (st : MState) (frames : List Frame) (cache : Option Cache) r
    (hnm : n ≤ m) (h : loopN br n st frames cache = some r) :
    loopN br m st frames cache = some r := by
  induction m with
  | zero =>
    have : n = 0 := Nat.le_zero.mp hnm
    subst this
    exact h
  | succ m ih =>
    rcases Nat.lt_or_ge n (m + 1) with hlt | hge
    · exact loopN_mono br m _ _ _ _ (ih (Nat.lt_succ_iff.mp hlt))
    · have : n = m + 1 := Nat.le_antisymm hnm hge
      subst this
      exact h

/-- The case list of a `BranchedValue`, as pending compute items at the
parent's depth, renders to exactly `stringifySpecList`. -/
theorem specItemsAt_cases (br : Option BlockRecursionProps) (depth : Nat) :
    ∀ cases : List Value,
    specItemsAt br (cases.map (fun c => ⟨c, depth⟩)) = stringifySpecList br depth cases := by
  intro cases
  induction cases with
  | nil => simp [specItemsAt, stringifySpecList]
  | cons c rest ih =>
    simp only [List.map_cons, specItemsAt, stringifySpecList, ih]

/-- A captured environment, as pending compute items at the new depth,
renders to `stringifySpecStack` up to prefixing each string with its
binding id. -/
theorem specItemsAt_stack (br : Option BlockRecursionProps) (nd : Nat) :
    ∀ stack : List (String × Value),
    stringifySpecStack br nd stack =
      Option.map (List.zipWith (fun id s => id ++ ": " ++ s) (stack.map Prod.fst))
        (specItemsAt br (stack.map (fun p => ⟨p.2, nd⟩))) := by
  intro stack
  induction stack with
  | nil => simp [specItemsAt, stringifySpecStack]
  | cons p rest ih =>
    obtain ⟨id, w⟩ := p
    simp only [List.map_cons, specItemsAt, stringifySpecStack, ih]
    cases stringifySpec br nd w with
    | none => simp
    | some s =>
      cases specItemsAt br (rest.map (fun p => ⟨p.2, nd⟩)) with
      | none => simp
      | some ss => simp

/-- The machine run starting from `compute (v, depth)` with no cache
reaches, in some exact number of steps, the `reduce` of the structural
rendering (or the `throw` when the rendering is undefined), with the frame
stack untouched. -/
def SimOK (br : Option BlockRecursionProps) (v : Value) : Prop :=
  ∀ (depth : Nat) (frames : List Frame),
    (∀ s, stringifySpec br depth v = some s →
      ∃ n, ∀ k, loopN br (n + k) (.compute ⟨v, depth⟩) frames none =
        loopN br k (.reduce s) frames none) ∧
    (stringifySpec br depth v = none →
      ∃ n, loopN br n (.compute ⟨v, depth⟩) frames none =
        some (.error "unhandled value type"))

/-- Processing the remaining children of a frame: entering `reduce s` with
the frame on top (where `s` is the string of the child after `before`, and
`done` holds one string per item of `before`), the machine either reaches
the frame's combined string, or throws if some pending child's rendering is
undefined. -/
theorem frame_sim (br : Option BlockRecursionProps) (owner : Value) (kind : FrameKind)
    (frames : List Frame) :
    ∀ (pending : List ComputeItem),
    (∀ it ∈ pending, SimOK br it.value) →
    ∀ (before : List ComputeItem) (cur : ComputeItem) (done : List String)
      (s : String),
    done.length = before.length →
    (∀ ss, specItemsAt br pending = some ss →
      ∃ n, ∀ k, loopN br (n + k) (.reduce s)
          (⟨owner, before ++ cur :: pending, done, kind⟩ :: frames) none =
        loopN br k (.reduce (combine kind (done ++ s :: ss))) frames none) ∧
    (specItemsAt br pending = none →
      ∃ n, loopN br n (.reduce s)
          (⟨owner, before ++ cur :: pending, done, kind⟩ :: frames) none =
        some (.error "unhandled value type")) := by
  intro pending
  induction pending with
  | nil =>
    intro _ before cur done s hlen
    constructor
    · intro ss hss
      simp only [specItemsAt, Option.some.injEq] at hss
      subst hss
      refine ⟨1, fun k => ?_⟩
      rw [Nat.add_comm 1 k]
      simp only [loopN]
      have hl : ((done ++ [s]).length == (before ++ [cur]).length) = true := by
        simp [hlen]
      simp only [hl, if_true]
      simp
    · intro hnone
      simp [specItemsAt] at hnone
  | cons cur2 rest ih =>
    intro hsim before cur done s hlen
    have hlenne :
        ((done ++ [s]).length == (before ++ cur :: cur2 :: rest).length) = false := by
      have h1 : (done ++ [s]).length = before.length + 1 := by simp [hlen]
      have h2 : (before ++ cur :: cur2 :: rest).length = before.length + rest.length + 2 := by
        simp [List.length_append, List.length_cons]
        omega
      simp only [h1, h2, beq_eq_false_iff_ne, ne_eq]
      omega
    have hget : (before ++ cur :: cur2 :: rest)[(done ++ [s]).length]? = some cur2 := by
      have h1 : (done ++ [s]).length = before.length + 1 := by simp [hlen]
      rw [h1]
      rw [List.getElem?_append_right (by omega)]
      simp
    have hassoc :
        before ++ cur :: cur2 :: rest = (before ++ [cur]) ++ cur2 :: rest := by simp
    have hstep : ∀ m, loopN br (m + 1) (.reduce s)
        (⟨owner, before ++ cur :: cur2 :: rest, done, kind⟩ :: frames) none =
        loopN br m (.compute cur2)
          (⟨owner, before ++ cur :: cur2 :: rest, done ++ [s], kind⟩ :: frames) none := by
      intro m
      simp only [loopN]
      simp only [hlenne, Bool.false_eq_true, if_false, hget]
    have hsim2 := hsim cur2 (by simp)
    constructor
    · intro ss hss
      simp only [specItemsAt] at hss
      cases hc2 : stringifySpec br cur2.depth cur2.value with
      | none => rw [hc2] at hss; simp at hss
      | some s2 =>
        rw [hc2] at hss
        cases hrest : specItemsAt br rest with
        | none => rw [hrest] at hss; simp at hss
        | some ss2 =>
          rw [hrest] at hss
          simp only [Option.some.injEq] at hss
          subst hss
          obtain ⟨n2, hn2⟩ := (hsim2 cur2.depth
            (⟨owner, before ++ cur :: cur2 :: rest, done ++ [s], kind⟩ :: frames)).1 s2 hc2
          obtain ⟨n3, hn3⟩ := (ih (fun it hit => hsim it (by simp [hit]))
            (before ++ [cur]) cur2 (done ++ [s]) s2 (by simp [hlen])).1 ss2 hrest
          refine ⟨1 + n2 + n3, fun k => ?_⟩
          rw [show 1 + n2 + n3 + k = (n2 + (n3 + k)) + 1 by omega, hstep]
          have hn2i := hn2 (n3 + k)
          rw [hn2i]
          rw [hassoc]
          rw [hn3 k]
          congr 2
          simp
    · intro hnone
      simp only [specItemsAt] at hnone
      cases hc2 : stringifySpec br cur2.depth cur2.value with
      | none =>
        obtain ⟨n2, hn2⟩ := (hsim2 cur2.depth
          (⟨owner, before ++ cur :: cur2 :: rest, done ++ [s], kind⟩ :: frames)).2 hc2
        refine ⟨1 + n2, ?_⟩
        rw [show 1 + n2 = n2 + 1 by omega, hstep]
        exact hn2
      | some s2 =>
        rw [hc2] at hnone
        cases hrest : specItemsAt br rest with
        | some ss2 => rw [hrest] at hnone; simp at hnone
        | none =>
          obtain ⟨n2, hn2⟩ := (hsim2 cur2.depth
            (⟨owner, before ++ cur :: cur2 :: rest, done ++ [s], kind⟩ :: frames)).1 s2 hc2
          obtain ⟨n3, hn3⟩ := (ih (fun it hit => hsim it (by simp [hit]))
            (before ++ [cur]) cur2 (done ++ [s]) s2 (by simp [hlen])).2 hrest
          refine ⟨1 + n2 + n3, ?_⟩
          rw [show 1 + n2 + n3 = (n2 + n3) + 1 by omega, hstep]
          rw [hn2 n3]
          rw [hassoc]
          exact hn3

/-- Every value satisfies the cache-free machine/spec simulation. -/
theorem simOK_all (br : Option BlockRecursionProps) : ∀ v, SimOK br v := by
  intro v
  induction v using Value.myInduction with
  | hany s =>
    intro depth frames
    refine ⟨fun s1 hs1 => ?_, fun hnone => by simp [stringifySpec] at hnone⟩
    simp only [stringifySpec, Option.some.injEq] at hs1
    subst hs1
    refine ⟨1, fun k => ?_⟩
    rw [Nat.add_comm 1 k]
    simp [loopN, cacheHit]
  | hdata s =>
    intro depth frames
    refine ⟨fun s1 hs1 => ?_, fun hnone => by simp [stringifySpec] at hnone⟩
    simp only [stringifySpec, Option.some.injEq] at hs1
    subst hs1
    refine ⟨1, fun k => ?_⟩
    rw [Nat.add_comm 1 k]
    simp [loopN, cacheHit]
  | hliteral s =>
    intro depth frames
    refine ⟨fun s1 hs1 => ?_, fun hnone => by simp [stringifySpec] at hnone⟩
    simp only [stringifySpec, Option.some.injEq] at hs1
    subst hs1
    refine ⟨1, fun k => ?_⟩
    rw [Nat.add_comm 1 k]
    simp [loopN, cacheHit]
  | herror s =>
    intro depth frames
    refine ⟨fun s1 hs1 => ?_, fun hnone => by simp [stringifySpec] at hnone⟩
    simp only [stringifySpec, Option.some.injEq] at hs1
    subst hs1
    refine ⟨1, fun k => ?_⟩
    rw [Nat.add_comm 1 k]
    simp [loopN, cacheHit]
  | hbuiltin s =>
    intro depth frames
    refine ⟨fun s1 hs1 => ?_, fun hnone => by simp [stringifySpec] at hnone⟩
    simp only [stringifySpec, Option.some.injEq] at hs1
    subst hs1
    refine ⟨1, fun k => ?_⟩
    rw [Nat.add_comm 1 k]
    simp [loopN, cacheHit]
  | hunknown =>
    intro depth frames
    refine ⟨fun s1 hs1 => by simp [stringifySpec] at hs1, fun _ => ?_⟩
    exact ⟨1, by simp [loopN, cacheHit]⟩
  | hmaybe inner ih =>
    intro depth frames
    have hstep : ∀ m, loopN br (m + 1) (.compute ⟨.maybeError inner, depth⟩) frames none =
        loopN br m (.compute ⟨inner, depth⟩)
          (⟨.maybeError inner, [⟨inner, depth⟩], [], .maybeError⟩ :: frames) none := by
      intro m
      simp [loopN, cacheHit, frameChildItems]
    refine ⟨fun s1 hs1 => ?_, fun hnone => ?_⟩
    · simp only [stringifySpec] at hs1
      cases hi : stringifySpec br depth inner with
      | none => rw [hi] at hs1; simp at hs1
      | some si =>
        rw [hi] at hs1
        simp only [Option.some.injEq] at hs1
        subst hs1
        obtain ⟨n1, hn1⟩ := (ih depth
          (⟨.maybeError inner, [⟨inner, depth⟩], [], .maybeError⟩ :: frames)).1 si hi
        obtain ⟨nf, hnf⟩ := (frame_sim br (.maybeError inner) .maybeError frames []
          (by simp) [] ⟨inner, depth⟩ [] si rfl).1 [] (by simp [specItemsAt])
        refine ⟨1 + n1 + nf, fun k => ?_⟩
        rw [show 1 + n1 + nf + k = (n1 + (nf + k)) + 1 by omega, hstep]
        rw [hn1 (nf + k)]
        simpa [combine] using hnf k
    · simp only [stringifySpec] at hnone
      cases hi : stringifySpec br depth inner with
      | some si => rw [hi] at hnone; simp at hnone
      | none =>
        obtain ⟨n1, hn1⟩ := (ih depth
          (⟨.maybeError inner, [⟨inner, depth⟩], [], .maybeError⟩ :: frames)).2 hi
        refine ⟨1 + n1, ?_⟩
        rw [show 1 + n1 = n1 + 1 by omega, hstep]
        exact hn1
  | hbranched pre condition cases ihc ihs =>
    intro depth frames
    have hpend : ∀ it ∈ cases.map (fun c => (⟨c, depth⟩ : ComputeItem)), SimOK br it.value := by
      intro it hit
      obtain ⟨c, hc, rfl⟩ := List.mem_map.mp hit
      exact ihs c hc
    have hstep : ∀ m, loopN br (m + 1)
        (.compute ⟨.branched pre condition cases, depth⟩) frames none =
        loopN br m (.compute ⟨condition, depth⟩)
          (⟨.branched pre condition cases,
            ⟨condition, depth⟩ :: cases.map (fun c => ⟨c, depth⟩), [],
            .branched pre⟩ :: frames) none := by
      intro m
      simp [loopN, cacheHit, frameChildItems]
    refine ⟨fun s1 hs1 => ?_, fun hnone => ?_⟩
    · simp only [stringifySpec] at hs1
      cases hcnd : stringifySpec br depth condition with
      | none => rw [hcnd] at hs1; simp at hs1
      | some c =>
        rw [hcnd] at hs1
        cases hlist : stringifySpecList br depth cases with
        | none => rw [hlist] at hs1; simp at hs1
        | some cs =>
          rw [hlist] at hs1
          simp only [Option.some.injEq] at hs1
          subst hs1
          obtain ⟨n1, hn1⟩ := (ihc depth
            (⟨.branched pre condition cases,
              ⟨condition, depth⟩ :: cases.map (fun c => ⟨c, depth⟩), [],
              .branched pre⟩ :: frames)).1 c hcnd
          obtain ⟨nf, hnf⟩ := (frame_sim br (.branched pre condition cases)
            (.branched pre) frames (cases.map (fun c => ⟨c, depth⟩)) hpend
            [] ⟨condition, depth⟩ [] c rfl).1 cs
            (by rw [specItemsAt_cases]; exact hlist)
          refine ⟨1 + n1 + nf, fun k => ?_⟩
          rw [show 1 + n1 + nf + k = (n1 + (nf + k)) + 1 by omega, hstep]
          rw [hn1 (nf + k)]
          simpa [combine] using hnf k
    · simp only [stringifySpec] at hnone
      cases hcnd : stringifySpec br depth condition with
      | none =>
        obtain ⟨n1, hn1⟩ := (ihc depth
          (⟨.branched pre condition cases,
            ⟨condition, depth⟩ :: cases.map (fun c => ⟨c, depth⟩), [],
            .branched pre⟩ :: frames)).2 hcnd
        refine ⟨1 + n1, ?_⟩
        rw [show 1 + n1 = n1 + 1 by omega, hstep]
        exact hn1
      | some c =>
        rw [hcnd] at hnone
        cases hlist : stringifySpecList br depth cases with
        | some cs => rw [hlist] at hnone; simp at hnone
        | none =>
          obtain ⟨n1, hn1⟩ := (ihc depth
            (⟨.branched pre condition cases,
              ⟨condition, depth⟩ :: cases.map (fun c => ⟨c, depth⟩), [],
              .branched pre⟩ :: frames)).1 c hcnd
          obtain ⟨nf, hnf⟩ := (frame_sim br (.branched pre condition cases)
            (.branched pre) frames (cases.map (fun c => ⟨c, depth⟩)) hpend
            [] ⟨condition, depth⟩ [] c rfl).2
            (by rw [specItemsAt_cases]; exact hlist)
          refine ⟨1 + n1 + nf, ?_⟩
          rw [show 1 + n1 + nf = (n1 + nf) + 1 by omega, hstep]
          rw [hn1 nf]
          exact hnf
  | hfunc tag stack ihs =>
    intro depth frames
    by_cases hcut : cutoffHit br tag depth
    · refine ⟨fun s1 hs1 => ?_, fun hnone => ?_⟩
      · simp only [stringifySpec, hcut, if_true, Option.some.injEq] at hs1
        subst hs1
        refine ⟨1, fun k => ?_⟩
        rw [Nat.add_comm 1 k]
        simp [loopN, cacheHit, hcut]
      · simp [stringifySpec, hcut] at hnone
    · cases hstk : stack with
      | nil =>
        refine ⟨fun s1 hs1 => ?_, fun hnone => ?_⟩
        · simp only [stringifySpec, hcut, Bool.false_eq_true, if_false,
            Option.some.injEq] at hs1
          subst hs1
          refine ⟨1, fun k => ?_⟩
          rw [Nat.add_comm 1 k]
          simp [loopN, cacheHit, hcut]
        · simp [stringifySpec, hcut] at hnone
      | cons p0 rest =>
        obtain ⟨id0, v0⟩ := p0
        subst hstk
        have hv0 : SimOK br v0 := ihs (id0, v0) (by simp)
        have hpend : ∀ it ∈ rest.map
            (fun p => (⟨p.2, if matchesTag br tag then depth + 1 else depth⟩ : ComputeItem)),
            SimOK br it.value := by
          intro it hit
          obtain ⟨p, hp, rfl⟩ := List.mem_map.mp hit
          exact ihs p (by simp [hp])
        have hchildren : frameChildItems br (.func tag ((id0, v0) :: rest)) depth =
            ⟨v0, if matchesTag br tag then depth + 1 else depth⟩ ::
              rest.map (fun p => ⟨p.2, if matchesTag br tag then depth + 1 else depth⟩) := by
          simp [frameChildItems]
        have hstep : ∀ m, loopN br (m + 1)
            (.compute ⟨.func tag ((id0, v0) :: rest), depth⟩) frames none =
            loopN br m
              (.compute ⟨v0, if matchesTag br tag then depth + 1 else depth⟩)
              (⟨.func tag ((id0, v0) :: rest),
                frameChildItems br (.func tag ((id0, v0) :: rest)) depth, [],
                .func tag (((id0, v0) :: rest).map Prod.fst)⟩ :: frames) none := by
          intro m
          simp [loopN, cacheHit, hcut]
        refine ⟨fun s1 hs1 => ?_, fun hnone => ?_⟩
        · simp only [stringifySpec, hcut, Bool.false_eq_true, if_false] at hs1
          cases hss : stringifySpecStack br
              (if matchesTag br tag then depth + 1 else depth) ((id0, v0) :: rest) with
          | none => rw [hss] at hs1; simp at hs1
          | some items =>
            rw [hss] at hs1
            simp only [Option.some.injEq] at hs1
            subst hs1
            rw [specItemsAt_stack] at hss
            cases hitems : specItemsAt br (((id0, v0) :: rest).map
                (fun p => ⟨p.2, if matchesTag br tag then depth + 1 else depth⟩)) with
            | none => rw [hitems] at hss; simp at hss
            | some ss =>
              rw [hitems] at hss
              simp only [Option.map_some', Option.some.injEq] at hss
              simp only [List.map_cons, specItemsAt] at hitems
              cases h0 : stringifySpec br
                  (if matchesTag br tag then depth + 1 else depth) v0 with
              | none => rw [h0] at hitems; simp at hitems
              | some s0 =>
                rw [h0] at hitems
                cases hrest : specItemsAt br (rest.map
                    (fun p => ⟨p.2, if matchesTag br tag then depth + 1 else depth⟩)) with
                | none => rw [hrest] at hitems; simp at hitems
                | some ss' =>
                  rw [hrest] at hitems
                  simp only [Option.some.injEq] at hitems
                  subst hitems
                  obtain ⟨n1, hn1⟩ := (hv0
                    (if matchesTag br tag then depth + 1 else depth)
                    (⟨.func tag ((id0, v0) :: rest),
                      frameChildItems br (.func tag ((id0, v0) :: rest)) depth, [],
                      .func tag (((id0, v0) :: rest).map Prod.fst)⟩ :: frames)).1 s0 h0
                  obtain ⟨nf, hnf⟩ := (frame_sim br (.func tag ((id0, v0) :: rest))
                    (.func tag (((id0, v0) :: rest).map Prod.fst)) frames
                    (rest.map (fun p =>
                      ⟨p.2, if matchesTag br tag then depth + 1 else depth⟩)) hpend
                    [] ⟨v0, if matchesTag br tag then depth + 1 else depth⟩ [] s0 rfl).1
                    ss' hrest
                  refine ⟨1 + n1 + nf, fun k => ?_⟩
                  rw [show 1 + n1 + nf + k = (n1 + (nf + k)) + 1 by omega, hstep]
                  rw [hn1 (nf + k)]
                  have hnfk := hnf k
                  rw [hchildren]
                  simp only [List.nil_append] at hnfk
                  rw [hnfk]
                  congr 2
                  simp [combine, ← hss]
        · simp only [stringifySpec, hcut, Bool.false_eq_true, if_false] at hnone
          cases hss : stringifySpecStack br
              (if matchesTag br tag then depth + 1 else depth) ((id0, v0) :: rest) with
          | some items => rw [hss] at hnone; simp at hnone
          | none =>
            rw [specItemsAt_stack] at hss
            rw [Option.map_eq_none'] at hss
            simp only [List.map_cons, specItemsAt] at hss
            cases h0 : stringifySpec br
                (if matchesTag br tag then depth + 1 else depth) v0 with
            | none =>
              obtain ⟨n1, hn1⟩ := (hv0
                (if matchesTag br tag then depth + 1 else depth)
                (⟨.func tag ((id0, v0) :: rest),
                  frameChildItems br (.func tag ((id0, v0) :: rest)) depth, [],
                  .func tag (((id0, v0) :: rest).map Prod.fst)⟩ :: frames)).2 h0
              refine ⟨1 + n1, ?_⟩
              rw [show 1 + n1 = n1 + 1 by omega, hstep]
              exact hn1
            | some s0 =>
              rw [h0] at hss
              cases hrest : specItemsAt br (rest.map
                  (fun p => ⟨p.2, if matchesTag br tag then depth + 1 else depth⟩)) with
              | some ss' => rw [hrest] at hss; simp at hss
              | none =>
                obtain ⟨n1, hn1⟩ := (hv0
                  (if matchesTag br tag then depth + 1 else depth)
                  (⟨.func tag ((id0, v0) :: rest),
                    frameChildItems br (.func tag ((id0, v0) :: rest)) depth, [],
                    .func tag (((id0, v0) :: rest).map Prod.fst)⟩ :: frames)).1 s0 h0
                obtain ⟨nf, hnf⟩ := (frame_sim br (.func tag ((id0, v0) :: rest))
                  (.func tag (((id0, v0) :: rest).map Prod.fst)) frames
                  (rest.map (fun p =>
                    ⟨p.2, if matchesTag br tag then depth + 1 else depth⟩)) hpend
                  [] ⟨v0, if matchesTag br tag then depth + 1 else depth⟩ [] s0 rfl).2
                  hrest
                refine ⟨1 + n1 + nf, ?_⟩
                rw [show 1 + n1 + nf = (n1 + nf) + 1 by omega, hstep]
                rw [hn1 nf]
                rw [hchildren]
                simpa using hnf

/-- Top-level simulation: with no cache, `stringifyValue` computes the
structural rendering (or throws exactly when it is undefined). -/
theorem stringifyValue_sim (br : Option BlockRecursionProps) (v : Value) :
    (∀ s, stringifySpec br 0 v = some s →
      ∃ n, stringifyValue n v br none = some (.ok (s, none))) ∧
    (stringifySpec br 0 v = none →
      ∃ n, stringifyValue n v br none = some (.error "unhandled value type")) := by
  constructor
  · intro s hs
    obtain ⟨n, hn⟩ := (simOK_all br v 0 []).1 s hs
    refine ⟨n + 1, ?_⟩
    have h1 := hn 1
    have h2 : loopN br 1 (.reduce s) [] none = some (.ok (.reduce s, none)) := rfl
    rw [h2] at h1
    simp [stringifyValue, h1]
  · intro hs
    obtain ⟨n, hn⟩ := (simOK_all br v 0 []).2 hs
    exact ⟨n, by simp [stringifyValue, hn]⟩

/-- The structural rendering of a list of sealed values is defined. -/
theorem specList_isSome (br : Option BlockRecursionProps) (depth : Nat) :
    ∀ cases : List Value,
    (∀ c ∈ cases, (stringifySpec br depth c).isSome = true) →
    (stringifySpecList br depth cases).isSome = true := by
  intro cases
  induction cases with
  | nil => intro _; simp [stringifySpecList]
  | cons c rest ih =>
    intro h
    have hc := h c (by simp)
    have hrest := ih (fun x hx => h x (by simp [hx]))
    rw [Option.isSome_iff_exists] at hc hrest
    obtain ⟨s, hs⟩ := hc
    obtain ⟨ss, hss⟩ := hrest
    simp [stringifySpecList, hs, hss]

/-- The structural rendering of a sealed environment is defined. -/
theorem specStack_isSome (br : Option BlockRecursionProps) (depth : Nat) :
    ∀ stack : List (String × Value),
    (∀ p ∈ stack, (stringifySpec br depth p.2).isSome = true) →
    (stringifySpecStack br depth stack).isSome = true := by
  intro stack
  induction stack with
  | nil => intro _; simp [stringifySpecStack]
  | cons p rest ih =>
    intro h
    obtain ⟨id, w⟩ := p
    have hw := h (id, w) (by simp)
    have hrest := ih (fun x hx => h x (by simp [hx]))
    rw [Option.isSome_iff_exists] at hw hrest
    obtain ⟨s, hs⟩ := hw
    obtain ⟨ss, hss⟩ := hrest
    simp only at hs
    simp [stringifySpecStack, hs, hss]

/-- Members of a sealed case list are sealed. -/
theorem sealedList_mem : ∀ cases : List Value,
    Value.sealedList cases = true → ∀ c ∈ cases, Value.sealed c = true := by
  intro cases
  induction cases with
  | nil => simp
  | cons c rest ih =>
    intro h x hx
    simp only [Value.sealedList, Bool.and_eq_true] at h
    rcases List.mem_cons.mp hx with rfl | hx2
    · exact h.1
    · exact ih h.2 x hx2

/-- Bound values of a sealed environment are sealed. -/
theorem sealedStack_mem : ∀ stack : List (String × Value),
    Value.sealedStack stack = true → ∀ p ∈ stack, Value.sealed p.2 = true := by
  intro stack
  induction stack with
  | nil => simp
  | cons p rest ih =>
    obtain ⟨id, w⟩ := p
    intro h x hx
    simp only [Value.sealedStack, Bool.and_eq_true] at h
    rcases List.mem_cons.mp hx with rfl | hx2
    · exact h.1
    · exact ih h.2 x hx2

/-- Sealed graphs always have a defined structural rendering. -/
theorem spec_sealed_isSome (br : Option BlockRecursionProps) :
    ∀ v, Value.sealed v = true → ∀ depth, (stringifySpec br depth v).isSome = true := by
  intro v
  induction v using Value.myInduction with
  | hany s => intro _ depth; simp [stringifySpec]
  | hdata s => intro _ depth; simp [stringifySpec]
  | hliteral s => intro _ depth; simp [stringifySpec]
  | herror s => intro _ depth; simp [stringifySpec]
  | hbuiltin s => intro _ depth; simp [stringifySpec]
  | hunknown => intro h; simp [Value.sealed] at h
  | hmaybe inner ih =>
    intro h depth
    simp only [Value.sealed] at h
    have := ih h depth
    rw [Option.isSome_iff_exists] at this
    obtain ⟨s, hs⟩ := this
    simp [stringifySpec, hs]
  | hbranched pre condition cases ihc ihs =>
    intro h depth
    simp only [Value.sealed, Bool.and_eq_true] at h
    have hsl : ∀ c ∈ cases, Value.sealed c = true := sealedList_mem cases h.2
    have hc := ihc h.1 depth
    rw [Option.isSome_iff_exists] at hc
    obtain ⟨c, hcnd⟩ := hc
    have hlist := specList_isSome br depth cases (fun x hx => ihs x hx (hsl x hx) depth)
    rw [Option.isSome_iff_exists] at hlist
    obtain ⟨cs, hcs⟩ := hlist
    simp [stringifySpec, hcnd, hcs]
  | hfunc tag stack ihs =>
    intro h depth
    simp only [Value.sealed] at h
    have hsl : ∀ p ∈ stack, Value.sealed p.2 = true := sealedStack_mem stack h
    by_cases hcut : cutoffHit br tag depth
    · simp [stringifySpec, hcut]
    · cases stack with
      | nil => simp [stringifySpec, hcut]
      | cons p0 rest =>
        have hstk := specStack_isSome br (if matchesTag br tag then depth + 1 else depth)
          (p0 :: rest) (fun p hp => ihs p hp (hsl p hp) _)
        rw [Option.isSome_iff_exists] at hstk
        obtain ⟨items, hitems⟩ := hstk
        simp [stringifySpec, hcut, hitems]

/-- `spec_nocutoff` over a case list. -/
theorem specList_nocutoff (br : Option BlockRecursionProps) :
    ∀ (cases : List Value) (depth : Nat),
    (∀ c ∈ cases, ∀ d, noCutoffHit br d c = true →
      stringifySpec br d c = stringifySpec none 0 c) →
    noCutoffHitList br depth cases = true →
    stringifySpecList br depth cases = stringifySpecList none 0 cases := by
  intro cases
  induction cases with
  | nil => intro depth _ _; rfl
  | cons c rest ih =>
    intro depth hmem h
    simp only [noCutoffHitList, Bool.and_eq_true] at h
    simp only [stringifySpecList, hmem c (by simp) depth h.1,
      ih depth (fun x hx => hmem x (by simp [hx])) h.2]

/-- `spec_nocutoff` over a captured environment. -/
theorem specStack_nocutoff (br : Option BlockRecursionProps) :
    ∀ (stack : List (String × Value)) (depth : Nat),
    (∀ p ∈ stack, ∀ d, noCutoffHit br d p.2 = true →
      stringifySpec br d p.2 = stringifySpec none 0 p.2) →
    noCutoffHitStack br depth stack = true →
    stringifySpecStack br depth stack = stringifySpecStack none 0 stack := by
  intro stack
  induction stack with
  | nil => intro depth _ _; rfl
  | cons p rest ih =>
    obtain ⟨id, w⟩ := p
    intro depth hmem h
    simp only [noCutoffHitStack, Bool.and_eq_true] at h
    have hw : stringifySpec br depth w = stringifySpec none 0 w :=
      hmem (id, w) (by simp) depth h.1
    simp only [stringifySpecStack, hw,
      ih depth (fun x hx => hmem x (by simp [hx])) h.2]

/-- When the cutoff is never reached, the rendering does not depend on the
cutoff or the starting depth: it equals the cutoff-free rendering. -/
theorem spec_nocutoff (br : Option BlockRecursionProps) :
    ∀ (v : Value) (depth : Nat), noCutoffHit br depth v = true →
    stringifySpec br depth v = stringifySpec none 0 v := by
  intro v
  induction v using Value.myInduction with
  | hany s => intro _ _; rfl
  | hdata s => intro _ _; rfl
  | hliteral s => intro _ _; rfl
  | herror s => intro _ _; rfl
  | hbuiltin s => intro _ _; rfl
  | hunknown => intro _ _; rfl
  | hmaybe inner ih =>
    intro depth h
    simp only [noCutoffHit] at h
    simp only [stringifySpec, ih depth h]
  | hbranched pre condition cases ihc ihs =>
    intro depth h
    simp only [noCutoffHit, Bool.and_eq_true] at h
    simp only [stringifySpec, ihc depth h.1,
      specList_nocutoff br cases depth (fun c hc => ihs c hc) h.2]
  | hfunc tag stack ihs =>
    intro depth h
    simp only [noCutoffHit, Bool.and_eq_true] at h
    have hcut : cutoffHit br tag depth = false := by
      rcases h with ⟨h1, _⟩
      cases hc : cutoffHit br tag depth
      · rfl
      · rw [hc] at h1; exact absurd h1 (by simp)
    have hcut0 : cutoffHit none tag 0 = false := rfl
    cases stack with
    | nil => simp [stringifySpec, hcut, hcut0]
    | cons p0 rest =>
      have hstk := specStack_nocutoff br (p0 :: rest)
        (if matchesTag br tag then depth + 1 else depth)
        (fun p hp => ihs p hp) h.2
      have hnd0 : (if matchesTag none tag then 0 + 1 else 0) = 0 := rfl
      simp only [stringifySpec, hcut, hcut0, Bool.false_eq_true, if_false, hstk, hnd0]

/-- `maxDepthUsed` bound over a case list. -/
theorem maxDepthUsedList_le (br : Option BlockRecursionProps) (k : Nat) :
    ∀ (cases : List Value) (d : Nat),
    (∀ c ∈ cases, ∀ d2, d2 ≤ k → maxDepthUsed br d2 c ≤ k) → d ≤ k →
    maxDepthUsedList br d cases ≤ k := by
  intro cases
  induction cases with
  | nil => intro d _ hd; simpa [maxDepthUsedList] using hd
  | cons c rest ih =>
    intro d hmem hd
    simp only [maxDepthUsedList, max_le_iff]
    exact ⟨hmem c (by simp) d hd, ih d (fun x hx => hmem x (by simp [hx])) hd⟩

/-- `maxDepthUsed` bound over a captured environment. -/
theorem maxDepthUsedStack_le (br : Option BlockRecursionProps) (k : Nat) :
    ∀ (stack : List (String × Value)) (d : Nat),
    (∀ p ∈ stack, ∀ d2, d2 ≤ k → maxDepthUsed br d2 p.2 ≤ k) → d ≤ k →
    maxDepthUsedStack br d stack ≤ k := by
  intro stack
  induction stack with
  | nil => intro d _ hd; simpa [maxDepthUsedStack] using hd
  | cons p rest ih =>
    obtain ⟨id, w⟩ := p
    intro d hmem hd
    simp only [maxDepthUsedStack, max_le_iff]
    exact ⟨hmem (id, w) (by simp) d hd, ih d (fun x hx => hmem x (by simp [hx])) hd⟩

/-- With cutoff `(t, k)` and a starting depth of at most `k`, no
subcomputation is ever started at a depth beyond `k`: the rendering never
descends past the cutoff level. -/
theorem maxDepthUsed_le (t k : Nat) :
    ∀ (v : Value) (d : Nat), d ≤ k → maxDepthUsed (some ⟨t, k⟩) d v ≤ k := by
  intro v
  induction v using Value.myInduction with
  | hany s => intro d hd; simpa [maxDepthUsed] using hd
  | hdata s => intro d hd; simpa [maxDepthUsed] using hd
  | hliteral s => intro d hd; simpa [maxDepthUsed] using hd
  | herror s => intro d hd; simpa [maxDepthUsed] using hd
  | hbuiltin s => intro d hd; simpa [maxDepthUsed] using hd
  | hunknown => intro d hd; simpa [maxDepthUsed] using hd
  | hmaybe inner ih => intro d hd; simpa [maxDepthUsed] using ih d hd
  | hbranched pre condition cases ihc ihs =>
    intro d hd
    simp only [maxDepthUsed, max_le_iff]
    exact ⟨ihc d hd, maxDepthUsedList_le _ k cases d (fun c hc => ihs c hc) hd⟩
  | hfunc tag stack ihs =>
    intro d hd
    by_cases hcut : cutoffHit (some ⟨t, k⟩) tag d
    · simpa [maxDepthUsed, hcut] using hd
    · have hnd : (if matchesTag (some ⟨t, k⟩) tag then d + 1 else d) ≤ k := by
        by_cases hm : matchesTag (some ⟨t, k⟩) tag
        · have htag : (tag == t) = true := by
            simpa [matchesTag] using hm
          have hdk : (d == k) = false := by
            cases hdk : (d == k)
            · rfl
            · exact absurd (by simp [cutoffHit, htag, hdk]) hcut
          have : d ≠ k := by simpa using hdk
          simp only [hm, if_true]
          omega
        · simpa [hm] using hd
      simp only [maxDepthUsed, hcut, Bool.false_eq_true, if_false]
      exact maxDepthUsedStack_le _ k stack _ (fun p hp => ihs p hp) hnd

/-- Shape of every loop exit: a `break` always happens in a `reduce` state,
and the only `throw` inside the loop is the unhandled-variant one. -/
theorem loopN_exit (br : Option BlockRecursionProps) :
    ∀ (n : Nat) (st : MState) (frames : List Frame) (cache : Option Cache) r,
    loopN br n st frames cache = some r →
    (∀ st2 c2, r = .ok (st2, c2) → ∃ s, st2 = .reduce s) ∧
    (∀ e, r = .error e → e = "unhandled value type") := by
  intro n
  induction n with
  | zero => intro st frames cache r h; simp [loopN] at h
  | succ n ih =>
    intro st frames cache r h
    match st with
    | .compute item =>
      obtain ⟨v, depth⟩ := item
      simp only [loopN] at h
      cases hc : cacheHit cache v with
      | some cached => rw [hc] at h; exact ih _ _ _ _ h
      | none =>
        rw [hc] at h
        cases v with
        | any s => exact ih _ _ _ _ h
        | data s => exact ih _ _ _ _ h
        | literal s => exact ih _ _ _ _ h
        | error s => exact ih _ _ _ _ h
        | builtin s => exact ih _ _ _ _ h
        | maybeError inner => exact ih _ _ _ _ h
        | branched pre condition cases => exact ih _ _ _ _ h
        | func tag stack =>
          simp only at h
          by_cases hcut : cutoffHit br tag depth
          · simp only [hcut, if_true] at h
            exact ih _ _ _ _ h
          · simp only [hcut, Bool.false_eq_true, if_false] at h
            cases stack with
            | nil => exact ih _ _ _ _ h
            | cons p rest =>
              obtain ⟨id, v0⟩ := p
              exact ih _ _ _ _ h
        | unknown =>
          simp only [Option.some.injEq] at h
          subst h
          refine ⟨fun st2 c2 he => ?_, fun e he => ?_⟩
          · exact absurd he (by simp)
          · injection he with h2
            exact h2.symm
    | .reduce s =>
      simp only [loopN] at h
      cases frames with
      | nil =>
        simp only [Option.some.injEq] at h
        subst h
        refine ⟨fun st2 c2 he => ?_, fun e he => ?_⟩
        · injection he with h2
          exact ⟨s, (congrArg Prod.fst h2).symm⟩
        · exact absurd he (by simp)
      | cons frame rest =>
        simp only at h
        by_cases hlen :
            (frame.stringifiedValues ++ [s]).length == frame.values.length
        · simp only [hlen, if_true] at h
          exact ih _ _ _ _ h
        · simp only [hlen, Bool.false_eq_true, if_false] at h
          cases hget : frame.values[(frame.stringifiedValues ++ [s]).length]? with
          | some nextValue =>
            rw [hget] at h
            exact ih _ _ _ _ h
          | none => rw [hget] at h; exact absurd h (by simp)

/-- With no cutoff configured, the cutoff is trivially never hit. -/
theorem noCutoffHit_none : ∀ (v : Value) (d : Nat), noCutoffHit none d v = true := by
  intro v
  induction v using Value.myInduction with
  | hany s => intro d; rfl
  | hdata s => intro d; rfl
  | hliteral s => intro d; rfl
  | herror s => intro d; rfl
  | hbuiltin s => intro d; rfl
  | hunknown => intro d; rfl
  | hmaybe inner ih => intro d; simpa [noCutoffHit] using ih d
  | hbranched pre condition cases ihc ihs =>
    intro d
    simp only [noCutoffHit, Bool.and_eq_true]
    refine ⟨ihc d, ?_⟩
    induction cases with
    | nil => rfl
    | cons c rest ih2 =>
      simp only [noCutoffHitList, Bool.and_eq_true]
      exact ⟨ihs c (by simp) d, ih2 (fun x hx => ihs x (by simp [hx]))⟩
  | hfunc tag stack ihs =>
    intro d
    have hcut : cutoffHit none tag d = false := rfl
    simp only [noCutoffHit, hcut, Bool.not_false, Bool.true_and]
    induction stack with
    | nil => rfl
    | cons p rest ih2 =>
      obtain ⟨id, w⟩ := p
      simp only [noCutoffHitStack, Bool.and_eq_true]
      exact ⟨ihs (id, w) (by simp) _, ih2 (fun x hx => ihs x (by simp [hx]))⟩

/-- Members of a cutoff-free case list are cutoff-free. -/
theorem noCutoffHitList_mem (br : Option BlockRecursionProps) (depth : Nat) :
    ∀ cases : List Value, noCutoffHitList br depth cases = true →
    ∀ c ∈ cases, noCutoffHit br depth c = true := by
  intro cases
  induction cases with
  | nil => simp
  | cons c rest ih =>
    intro h x hx
    simp only [noCutoffHitList, Bool.and_eq_true] at h
    rcases List.mem_cons.mp hx with rfl | hx2
    · exact h.1
    · exact ih h.2 x hx2

/-- Bound values of a cutoff-free environment are cutoff-free. -/
theorem noCutoffHitStack_mem (br : Option BlockRecursionProps) (depth : Nat) :
    ∀ stack : List (String × Value), noCutoffHitStack br depth stack = true →
    ∀ p ∈ stack, noCutoffHit br depth p.2 = true := by
  intro stack
  induction stack with
  | nil => simp
  | cons p rest ih =>
    obtain ⟨id, w⟩ := p
    intro h x hx
    simp only [noCutoffHitStack, Bool.and_eq_true] at h
    rcases List.mem_cons.mp hx with rfl | hx2
    · exact h.1
    · exact ih h.2 x hx2

/-- A truthy cache hit on a correct cache returns the cutoff-free
rendering of the value. -/
theorem cacheHit_ok (c : Cache) (v : Value) (sh : String)
    (hok : CacheOK c) (h : cacheHit (some c) v = some sh) :
    stringifySpec none 0 v = some sh := by
  simp only [cacheHit, cacheGet] at h
  cases hf : c.find? (fun p => Value.beq p.1 v) with
  | none => rw [hf] at h; simp at h
  | some p =>
    rw [hf] at h
    simp only [Option.map_some'] at h
    have hbeq : Value.beq p.1 v = true := by
      have := List.find?_some hf
      simpa using this
    have hmem : p ∈ c := List.mem_of_find?_eq_some hf
    have heq : p.1 = v := Value.beq_sound p.1 v hbeq
    have hspec := hok p hmem
    rw [heq] at hspec
    by_cases hz : (p.2 == "") = true
    · rw [if_pos hz] at h
      simp at h
    · rw [if_neg hz] at h
      simp only [Option.some.injEq] at h
      rw [hspec, h]

/-- Case-list compute items render (cutoff-free) to `stringifySpecList`. -/
theorem specItems_cases (depth : Nat) : ∀ cases : List Value,
    specItems (cases.map (fun c => ⟨c, depth⟩)) = stringifySpecList none 0 cases := by
  intro cases
  induction cases with
  | nil => rfl
  | cons c rest ih => simp only [List.map_cons, specItems, stringifySpecList, ih]

/-- Environment compute items render (cutoff-free) to
`stringifySpecStack` up to id prefixing. -/
theorem specItems_stack (nd : Nat) : ∀ stack : List (String × Value),
    stringifySpecStack none 0 stack =
      Option.map (List.zipWith (fun id s => id ++ ": " ++ s) (stack.map Prod.fst))
        (specItems (stack.map (fun p => ⟨p.2, nd⟩))) := by
  intro stack
  induction stack with
  | nil => rfl
  | cons p rest ih =>
    obtain ⟨id, w⟩ := p
    simp only [List.map_cons, specItems, stringifySpecStack, ih]
    cases stringifySpec none 0 w with
    | none => simp
    | some s =>
      cases specItems (rest.map (fun p => ⟨p.2, nd⟩)) with
      | none => simp
      | some ss => simp

/-- The cached-run simulation property: starting from `compute (v, depth)`
on a correct cache, with the cutoff never reached inside `v`, the machine
reaches the `reduce` of `v`'s cutoff-free rendering and leaves the cache
correct. -/
def SimOKc (br : Option BlockRecursionProps) (v : Value) : Prop :=
  ∀ (depth : Nat) (frames : List Frame) (c : Cache) (s : String),
    CacheOK c → noCutoffHit br depth v = true →
    stringifySpec none 0 v = some s →
    ∃ n c2, CacheOK c2 ∧ ∀ k,
      loopN br (n + k) (.compute ⟨v, depth⟩) frames (some c) =
      loopN br k (.reduce s) frames (some c2)

/-- Cached frame processing: like `frame_sim`, with the cache threaded
through the children and the frame's combined string written back into the
cache on completion. -/
theorem frame_simc (br : Option BlockRecursionProps) (owner : Value) (kind : FrameKind)
    (frames : List Frame) :
    ∀ (pending : List ComputeItem),
    (∀ it ∈ pending, SimOKc br it.value ∧ noCutoffHit br it.depth it.value = true) →
    ∀ (before : List ComputeItem) (cur : ComputeItem) (done : List String)
      (s : String) (c : Cache) (ss : List String) (sOwner : String),
    done.length = before.length →
    CacheOK c →
    specItems pending = some ss →
    stringifySpec none 0 owner = some sOwner →
    sOwner = combine kind (done ++ s :: ss) →
    ∃ n c2, CacheOK c2 ∧ ∀ k,
      loopN br (n + k) (.reduce s)
        (⟨owner, before ++ cur :: pending, done, kind⟩ :: frames) (some c) =
      loopN br k (.reduce sOwner) frames (some c2) := by
  intro pending
  induction pending with
  | nil =>
    intro _ before cur done s c ss sOwner hlen hok hss howner hcomb
    simp only [specItems, Option.some.injEq] at hss
    subst hss
    refine ⟨1, (owner, sOwner) :: c, ?_, fun k => ?_⟩
    · intro p hp
      rcases List.mem_cons.mp hp with rfl | hp2
      · exact howner
      · exact hok p hp2
    · rw [Nat.add_comm 1 k]
      simp only [loopN]
      have hl : ((done ++ [s]).length == (before ++ [cur]).length) = true := by
        simp [hlen]
      simp only [hl, if_true]
      have : combine kind (done ++ [s]) = sOwner := by rw [hcomb]
      rw [this]
      simp [cacheSet]
  | cons cur2 rest ih =>
    intro hsim before cur done s c ss sOwner hlen hok hss howner hcomb
    have hlenne :
        ((done ++ [s]).length == (before ++ cur :: cur2 :: rest).length) = false := by
      have h1 : (done ++ [s]).length = before.length + 1 := by simp [hlen]
      have h2 : (before ++ cur :: cur2 :: rest).length = before.length + rest.length + 2 := by
        simp [List.length_append, List.length_cons]
        omega
      simp only [h1, h2, beq_eq_false_iff_ne, ne_eq]
      omega
    have hget : (before ++ cur :: cur2 :: rest)[(done ++ [s]).length]? = some cur2 := by
      have h1 : (done ++ [s]).length = before.length + 1 := by simp [hlen]
      rw [h1]
      rw [List.getElem?_append_right (by omega)]
      simp
    have hassoc :
        before ++ cur :: cur2 :: rest = (before ++ [cur]) ++ cur2 :: rest := by simp
    have hstep : ∀ m c0, loopN br (m + 1) (.reduce s)
        (⟨owner, before ++ cur :: cur2 :: rest, done, kind⟩ :: frames) (some c0) =
        loopN br m (.compute cur2)
          (⟨owner, before ++ cur :: cur2 :: rest, done ++ [s], kind⟩ :: frames) (some c0) := by
      intro m c0
      simp only [loopN]
      simp only [hlenne, Bool.false_eq_true, if_false, hget]
    simp only [specItems] at hss
    cases hc2 : stringifySpec none 0 cur2.value with
    | none => rw [hc2] at hss; simp at hss
    | some s2 =>
      rw [hc2] at hss
      cases hrest : specItems rest with
      | none => rw [hrest] at hss; simp at hss
      | some ss2 =>
        rw [hrest] at hss
        simp only [Option.some.injEq] at hss
        subst hss
        obtain ⟨hsimc2, hnc2⟩ := hsim cur2 (by simp)
        obtain ⟨n2, c2, hok2, hn2⟩ := hsimc2 cur2.depth
          (⟨owner, before ++ cur :: cur2 :: rest, done ++ [s], kind⟩ :: frames)
          c s2 hok hnc2 hc2
        obtain ⟨n3, c3, hok3, hn3⟩ := ih (fun it hit => hsim it (by simp [hit]))
          (before ++ [cur]) cur2 (done ++ [s]) s2 c2 ss2 sOwner
          (by simp [hlen]) hok2 hrest howner
          (by rw [hcomb]; congr 1; simp)
        refine ⟨1 + n2 + n3, c3, hok3, fun k => ?_⟩
        rw [show 1 + n2 + n3 + k = (n2 + (n3 + k)) + 1 by omega, hstep]
        rw [hn2 (n3 + k)]
        rw [hassoc]
        rw [hn3 k]

/-- Every value satisfies the cached simulation. -/
theorem simOKc_all (br : Option BlockRecursionProps) : ∀ v, SimOKc br v := by
  intro v
  induction v using Value.myInduction with
  | hany s =>
    intro depth frames c s1 hok hnc hs1
    cases hch : cacheHit (some c) (.any s) with
    | some sh =>
      have := cacheHit_ok c _ sh hok hch
      rw [hs1] at this
      simp only [Option.some.injEq] at this
      subst this
      refine ⟨1, c, hok, fun k => ?_⟩
      rw [Nat.add_comm 1 k]
      simp only [loopN, hch]
    | none =>
      simp only [stringifySpec, Option.some.injEq] at hs1
      subst hs1
      refine ⟨1, c, hok, fun k => ?_⟩
      rw [Nat.add_comm 1 k]
      simp only [loopN, hch]
  | hdata s =>
    intro depth frames c s1 hok hnc hs1
    cases hch : cacheHit (some c) (.data s) with
    | some sh =>
      have := cacheHit_ok c _ sh hok hch
      rw [hs1] at this
      simp only [Option.some.injEq] at this
      subst this
      refine ⟨1, c, hok, fun k => ?_⟩
      rw [Nat.add_comm 1 k]
      simp only [loopN, hch]
    | none =>
      simp only [stringifySpec, Option.some.injEq] at hs1
      subst hs1
      refine ⟨1, c, hok, fun k => ?_⟩
      rw [Nat.add_comm 1 k]
      simp only [loopN, hch]
  | hliteral s =>
    intro depth frames c s1 hok hnc hs1
    cases hch : cacheHit (some c) (.literal s) with
    | some sh =>
      have := cacheHit_ok c _ sh hok hch
      rw [hs1] at this
      simp only [Option.some.injEq] at this
      subst this
      refine ⟨1, c, hok, fun k => ?_⟩
      rw [Nat.add_comm 1 k]
      simp only [loopN, hch]
    | none =>
      simp only [stringifySpec, Option.some.injEq] at hs1
      subst hs1
      refine ⟨1, c, hok, fun k => ?_⟩
      rw [Nat.add_comm 1 k]
      simp only [loopN, hch]
  | herror s =>
    intro depth frames c s1 hok hnc hs1
    cases hch : cacheHit (some c) (.error s) with
    | some sh =>
      have := cacheHit_ok c _ sh hok hch
      rw [hs1] at this
      simp only [Option.some.injEq] at this
      subst this
      refine ⟨1, c, hok, fun k => ?_⟩
      rw [Nat.add_comm 1 k]
      simp only [loopN, hch]
    | none =>
      simp only [stringifySpec, Option.some.injEq] at hs1
      subst hs1
      refine ⟨1, c, hok, fun k => ?_⟩
      rw [Nat.add_comm 1 k]
      simp only [loopN, hch]
  | hbuiltin s =>
    intro depth frames c s1 hok hnc hs1
    cases hch : cacheHit (some c) (.builtin s) with
    | some sh =>
      have := cacheHit_ok c _ sh hok hch
      rw [hs1] at this
      simp only [Option.some.injEq] at this
      subst this
      refine ⟨1, c, hok, fun k => ?_⟩
      rw [Nat.add_comm 1 k]
      simp only [loopN, hch]
    | none =>
      simp only [stringifySpec, Option.some.injEq] at hs1
      subst hs1
      refine ⟨1, c, hok, fun k => ?_⟩
      rw [Nat.add_comm 1 k]
      simp only [loopN, hch]
  | hunknown =>
    intro depth frames c s1 hok hnc hs1
    simp [stringifySpec] at hs1
  | hmaybe inner ih =>
    intro depth frames c s1 hok hnc hs1
    cases hch : cacheHit (some c) (.maybeError inner) with
    | some sh =>
      have := cacheHit_ok c _ sh hok hch
      rw [hs1] at this
      simp only [Option.some.injEq] at this
      subst this
      refine ⟨1, c, hok, fun k => ?_⟩
      rw [Nat.add_comm 1 k]
      simp only [loopN, hch]
    | none =>
      simp only [stringifySpec] at hs1
      cases hi : stringifySpec none 0 inner with
      | none => rw [hi] at hs1; simp at hs1
      | some si =>
        rw [hi] at hs1
        simp only [Option.some.injEq] at hs1
        subst hs1
        simp only [noCutoffHit] at hnc
        obtain ⟨n1, c1, hok1, hn1⟩ := ih depth
          (⟨.maybeError inner, [⟨inner, depth⟩], [], .maybeError⟩ :: frames)
          c si hok hnc hi
        obtain ⟨nf, cf, hokf, hnf⟩ := frame_simc br (.maybeError inner) .maybeError frames
          [] (by simp) [] ⟨inner, depth⟩ [] si c1 []
          ("(" ++ si ++ " | Error)")
          rfl hok1 rfl (by simp [stringifySpec, hi]) (by simp [combine])
        refine ⟨1 + n1 + nf, cf, hokf, fun k => ?_⟩
        have hstep : ∀ m, loopN br (m + 1)
            (.compute ⟨.maybeError inner, depth⟩) frames (some c) =
            loopN br m (.compute ⟨inner, depth⟩)
              (⟨.maybeError inner, [⟨inner, depth⟩], [], .maybeError⟩ :: frames)
              (some c) := by
          intro m
          simp [loopN, hch, frameChildItems]
        rw [show 1 + n1 + nf + k = (n1 + (nf + k)) + 1 by omega, hstep]
        rw [hn1 (nf + k)]
        simpa using hnf k
  | hbranched pre condition cases ihc ihs =>
    intro depth frames c s1 hok hnc hs1
    cases hch : cacheHit (some c) (.branched pre condition cases) with
    | some sh =>
      have := cacheHit_ok c _ sh hok hch
      rw [hs1] at this
      simp only [Option.some.injEq] at this
      subst this
      refine ⟨1, c, hok, fun k => ?_⟩
      rw [Nat.add_comm 1 k]
      simp only [loopN, hch]
    | none =>
      simp only [stringifySpec] at hs1
      simp only [noCutoffHit, Bool.and_eq_true] at hnc
      cases hcnd : stringifySpec none 0 condition with
      | none => rw [hcnd] at hs1; simp at hs1
      | some c0 =>
        rw [hcnd] at hs1
        cases hlist : stringifySpecList none 0 cases with
        | none => rw [hlist] at hs1; simp at hs1
        | some cs =>
          rw [hlist] at hs1
          simp only [Option.some.injEq] at hs1
          subst hs1
          have hpend : ∀ it ∈ cases.map (fun x => (⟨x, depth⟩ : ComputeItem)),
              SimOKc br it.value ∧ noCutoffHit br it.depth it.value = true := by
            intro it hit
            obtain ⟨x, hx, rfl⟩ := List.mem_map.mp hit
            exact ⟨ihs x hx, noCutoffHitList_mem br depth cases hnc.2 x hx⟩
          obtain ⟨n1, c1, hok1, hn1⟩ := ihc depth
            (⟨.branched pre condition cases,
              ⟨condition, depth⟩ :: cases.map (fun x => ⟨x, depth⟩), [],
              .branched pre⟩ :: frames) c c0 hok hnc.1 hcnd
          obtain ⟨nf, cf, hokf, hnf⟩ := frame_simc br (.branched pre condition cases)
            (.branched pre) frames (cases.map (fun x => ⟨x, depth⟩)) hpend
            [] ⟨condition, depth⟩ [] c0 c1 cs
            (pre ++ "(" ++ c0 ++ ", " ++ joinSep ", " cs ++ ")")
            rfl hok1 (by rw [specItems_cases]; exact hlist)
            (by simp [stringifySpec, hcnd, hlist]) (by simp [combine])
          refine ⟨1 + n1 + nf, cf, hokf, fun k => ?_⟩
          have hstep : ∀ m, loopN br (m + 1)
              (.compute ⟨.branched pre condition cases, depth⟩) frames (some c) =
              loopN br m (.compute ⟨condition, depth⟩)
                (⟨.branched pre condition cases,
                  ⟨condition, depth⟩ :: cases.map (fun x => ⟨x, depth⟩), [],
                  .branched pre⟩ :: frames) (some c) := by
            intro m
            simp [loopN, hch, frameChildItems]
          rw [show 1 + n1 + nf + k = (n1 + (nf + k)) + 1 by omega, hstep]
          rw [hn1 (nf + k)]
          simpa using hnf k
  | hfunc tag stack ihs =>
    intro depth frames c s1 hok hnc hs1
    cases hch : cacheHit (some c) (.func tag stack) with
    | some sh =>
      have := cacheHit_ok c _ sh hok hch
      rw [hs1] at this
      simp only [Option.some.injEq] at this
      subst this
      refine ⟨1, c, hok, fun k => ?_⟩
      rw [Nat.add_comm 1 k]
      simp only [loopN, hch]
    | none =>
      simp only [noCutoffHit, Bool.and_eq_true] at hnc
      have hcut : cutoffHit br tag depth = false := by
        rcases hnc with ⟨h1, _⟩
        cases hc2 : cutoffHit br tag depth
        · rfl
        · rw [hc2] at h1; exact absurd h1 (by simp)
      have hcut0 : cutoffHit none tag 0 = false := rfl
      cases hstk : stack with
      | nil =>
        subst hstk
        simp only [stringifySpec, hcut0, Bool.false_eq_true, if_false,
          Option.some.injEq] at hs1
        subst hs1
        refine ⟨1, c, hok, fun k => ?_⟩
        rw [Nat.add_comm 1 k]
        simp only [loopN, hch, hcut, Bool.false_eq_true, if_false]
      | cons p0 rest =>
        obtain ⟨id0, v0⟩ := p0
        subst hstk
        have hmt0 : matchesTag none tag = false := rfl
        simp only [stringifySpec, hcut0, hmt0, Bool.false_eq_true, if_false] at hs1
        cases hss : stringifySpecStack none 0 ((id0, v0) :: rest) with
        | none => rw [hss] at hs1; simp at hs1
        | some items =>
          rw [hss] at hs1
          simp only [Option.some.injEq] at hs1
          subst hs1
          rw [specItems_stack (if matchesTag br tag then depth + 1 else depth)] at hss
          cases hitems : specItems (((id0, v0) :: rest).map
              (fun p => ⟨p.2, if matchesTag br tag then depth + 1 else depth⟩)) with
          | none => rw [hitems] at hss; simp at hss
          | some ss =>
            rw [hitems] at hss
            simp only [Option.map_some', Option.some.injEq] at hss
            simp only [List.map_cons, specItems] at hitems
            cases h0 : stringifySpec none 0 v0 with
            | none => rw [h0] at hitems; simp at hitems
            | some s0 =>
              rw [h0] at hitems
              cases hrest : specItems (rest.map
                  (fun p => ⟨p.2, if matchesTag br tag then depth + 1 else depth⟩)) with
              | none => rw [hrest] at hitems; simp at hitems
              | some ss2 =>
                rw [hrest] at hitems
                simp only [Option.some.injEq] at hitems
                subst hitems
                have hncstack := hnc.2
                have hnmem := noCutoffHitStack_mem br
                  (if matchesTag br tag then depth + 1 else depth) ((id0, v0) :: rest)
                  hncstack
                have hpend : ∀ it ∈ rest.map (fun p =>
                    (⟨p.2, if matchesTag br tag then depth + 1 else depth⟩ : ComputeItem)),
                    SimOKc br it.value ∧ noCutoffHit br it.depth it.value = true := by
                  intro it hit
                  obtain ⟨p, hp, rfl⟩ := List.mem_map.mp hit
                  exact ⟨ihs p (by simp [hp]), hnmem p (by simp [hp])⟩
                have hchildren : frameChildItems br (.func tag ((id0, v0) :: rest)) depth =
                    ⟨v0, if matchesTag br tag then depth + 1 else depth⟩ ::
                      rest.map (fun p =>
                        ⟨p.2, if matchesTag br tag then depth + 1 else depth⟩) := by
                  simp [frameChildItems]
                obtain ⟨n1, c1, hok1, hn1⟩ := ihs (id0, v0) (by simp)
                  (if matchesTag br tag then depth + 1 else depth)
                  (⟨.func tag ((id0, v0) :: rest),
                    frameChildItems br (.func tag ((id0, v0) :: rest)) depth, [],
                    .func tag (((id0, v0) :: rest).map Prod.fst)⟩ :: frames)
                  c s0 hok (hnmem (id0, v0) (by simp)) h0
                have hownerspec : stringifySpec none 0 (.func tag ((id0, v0) :: rest)) =
                    some ("Fn" ++ Nat.repr tag ++ "[" ++ joinSep ", " items ++ "]") := by
                  rw [← hss]
                  simp only [stringifySpec, hcut0, hmt0, Bool.false_eq_true, if_false]
                  rw [specItems_stack (if matchesTag br tag then depth + 1 else depth)]
                  simp only [List.map_cons, specItems, h0, hrest, Option.map_some']
                have hcombeq :
                    ("Fn" ++ Nat.repr tag ++ "[" ++ joinSep ", " items ++ "]") =
                    combine (.func tag (((id0, v0) :: rest).map Prod.fst))
                      ([] ++ s0 :: ss2) := by
                  rw [← hss]
                  simp [combine]
                obtain ⟨nf, cf, hokf, hnf⟩ := frame_simc br (.func tag ((id0, v0) :: rest))
                  (.func tag (((id0, v0) :: rest).map Prod.fst)) frames
                  (rest.map (fun p =>
                    ⟨p.2, if matchesTag br tag then depth + 1 else depth⟩)) hpend
                  [] ⟨v0, if matchesTag br tag then depth + 1 else depth⟩ [] s0 c1 ss2 _
                  rfl hok1 hrest hownerspec hcombeq
                refine ⟨1 + n1 + nf, cf, hokf, fun k => ?_⟩
                have hstep : ∀ m, loopN br (m + 1)
                    (.compute ⟨.func tag ((id0, v0) :: rest), depth⟩) frames (some c) =
                    loopN br m
                      (.compute ⟨v0, if matchesTag br tag then depth + 1 else depth⟩)
                      (⟨.func tag ((id0, v0) :: rest),
                        frameChildItems br (.func tag ((id0, v0) :: rest)) depth, [],
                        .func tag (((id0, v0) :: rest).map Prod.fst)⟩ :: frames)
                      (some c) := by
                  intro m
                  simp [loopN, hch, hcut]
                rw [show 1 + n1 + nf + k = (n1 + (nf + k)) + 1 by omega, hstep]
                rw [hn1 (nf + k)]
                rw [hchildren]
                simpa using hnf k

/-- Top-level cached simulation: on a fresh empty cache, when the cutoff is
never reached, `stringifyValue` returns the cutoff-free rendering. -/
theorem stringifyValue_cached (br : Option BlockRecursionProps) (v : Value) (s : String)
    (hnc : noCutoffHit br 0 v = true) (hs : stringifySpec none 0 v = some s) :
    ∃ n c2, stringifyValue n v br (some []) = some (.ok (s, some c2)) := by
  obtain ⟨n, c2, _, hn⟩ := simOKc_all br v 0 [] [] s
    (fun p hp => absurd hp (List.not_mem_nil p)) hnc hs
  refine ⟨n + 1, c2, ?_⟩
  have h1 := hn 1
  have h2 : loopN br 1 (.reduce s) [] (some c2) = some (.ok (.reduce s, some c2)) := rfl
  rw [h2] at h1
  simp [stringifyValue, h1]

/-- The values the engine uses as cache keys: composite values whose frame
combinator actually runs — a `MaybeErrorValue`, a `BranchedValue`, or a
`FuncValue` with a non-empty captured environment. -/
def CompositeKey (v : Value) : Prop :=
  (∃ inner, v = .maybeError inner) ∨
  (∃ pre condition cases, v = .branched pre condition cases) ∨
  (∃ tag stack, v = .func tag stack ∧ stack ≠ [])

/-- `s` is the output of `k`'s own frame combinator applied to a full
vector of child strings (one per child of `k`): the string a cache entry
for `k` gets exactly when `k`'s combinator ran.  In particular a
`FuncValue` entry always stores the bracketed `"Fn" + tag + "[...]"` form,
never the bare cutoff placeholder. -/
def CombinatorRan (k : Value) (s : String) : Prop :=
  (∃ inner x, k = .maybeError inner ∧ s = "(" ++ x ++ " | Error)") ∨
  (∃ pre condition cases x ys, k = .branched pre condition cases ∧
    ys.length = cases.length ∧
    s = pre ++ "(" ++ x ++ ", " ++ joinSep ", " ys ++ ")") ∨
  (∃ tag stack strs, k = .func tag stack ∧ stack ≠ [] ∧
    strs.length = stack.length ∧
    s = "Fn" ++ Nat.repr tag ++ "[" ++
      joinSep ", " (List.zipWith (fun id item => id ++ ": " ++ item)
        (stack.map Prod.fst) strs) ++ "]")

/-- Well-formedness of a frame as the machine builds it: the reified
combinator and the child count agree with the owning composite value. -/
def FrameOK (f : Frame) : Prop :=
  (∃ inner, f.owner = .maybeError inner ∧ f.kind = .maybeError ∧
    f.values.length = 1) ∨
  (∃ pre condition cases, f.owner = .branched pre condition cases ∧
    f.kind = .branched pre ∧ f.values.length = cases.length + 1) ∨
  (∃ tag stack, f.owner = .func tag stack ∧ stack ≠ [] ∧
    f.kind = .func tag (stack.map Prod.fst) ∧ f.values.length = stack.length)

/-- A well-formed frame owns a composite value. -/
theorem FrameOK.compositeKey {f : Frame} (h : FrameOK f) : CompositeKey f.owner := by
  rcases h with ⟨inner, h1, _⟩ | ⟨pre, condition, cases, h1, _⟩ | ⟨tag, stack, h1, h2, _⟩
  · exact Or.inl ⟨inner, h1⟩
  · exact Or.inr (Or.inl ⟨pre, condition, cases, h1⟩)
  · exact Or.inr (Or.inr ⟨tag, stack, h1, h2⟩)

/-- Completing a well-formed frame with a full vector of child strings
produces exactly the owner's combinator output. -/
theorem combinatorRan_of_frame (f : Frame) (strs : List String)
    (hOK : FrameOK f) (hlen : strs.length = f.values.length) :
    CombinatorRan f.owner (combine f.kind strs) := by
  rcases hOK with ⟨inner, h1, h2, h3⟩ | ⟨pre, condition, cases, h1, h2, h3⟩ |
    ⟨tag, stack, h1, hne, h2, h3⟩
  · rw [h3] at hlen
    obtain ⟨x, rfl⟩ := List.length_eq_one.mp hlen
    exact Or.inl ⟨inner, x, h1, by simp [h2, combine]⟩
  · rw [h3] at hlen
    cases strs with
    | nil => simp at hlen
    | cons x ys =>
      simp only [List.length_cons, Nat.add_right_cancel_iff] at hlen
      exact Or.inr (Or.inl ⟨pre, condition, cases, x, ys, h1, hlen,
        by simp [h2, combine]⟩)
  · rw [h3] at hlen
    exact Or.inr (Or.inr ⟨tag, stack, strs, h1, hne, hlen, by simp [h2, combine]⟩)

/-- The bracketed `FuncValue` entry string is never the bare cutoff
placeholder (`"Fn" + tag`): it is strictly longer. -/
theorem func_entry_ne_placeholder (tag : Nat) (mid : String) :
    ("Fn" ++ Nat.repr tag ++ "[" ++ mid ++ "]") ≠ "Fn" ++ Nat.repr tag := by
  intro h
  have hl := congrArg String.length h
  have h1 : String.length "[" = 1 := rfl
  have h2 : String.length "]" = 1 := rfl
  simp only [String.length_append, h1, h2] at hl
  omega

/-- Every cache binding present after a run was either already there or was
inserted, keyed by a composite frame owner and holding exactly that owner's
combinator output over a full vector of child strings. -/
theorem loopN_cache_keys (br : Option BlockRecursionProps) :
    ∀ (n : Nat) (st : MState) (frames : List Frame) (c : Cache) stX copt,
    loopN br n st frames (some c) = some (.ok (stX, copt)) →
    (∀ f ∈ frames, FrameOK f) →
    ∃ c2, copt = some c2 ∧
      ∀ p ∈ c2, p ∈ c ∨ (CompositeKey p.1 ∧ CombinatorRan p.1 p.2) := by
  intro n
  induction n with
  | zero => intro st frames c stX copt h _; simp [loopN] at h
  | succ n ih =>
    intro st frames c stX copt h hfr
    match st with
    | .compute item =>
      obtain ⟨v, depth⟩ := item
      simp only [loopN] at h
      cases hc : cacheHit (some c) v with
      | some cached => rw [hc] at h; exact ih _ _ _ _ _ h hfr
      | none =>
        rw [hc] at h
        cases v with
        | any s => exact ih _ _ _ _ _ h hfr
        | data s => exact ih _ _ _ _ _ h hfr
        | literal s => exact ih _ _ _ _ _ h hfr
        | error s => exact ih _ _ _ _ _ h hfr
        | builtin s => exact ih _ _ _ _ _ h hfr
        | maybeError inner =>
          refine ih _ _ _ _ _ h (fun f hf => ?_)
          rcases List.mem_cons.mp hf with rfl | hf2
          · exact Or.inl ⟨inner, rfl, rfl, by simp [frameChildItems]⟩
          · exact hfr f hf2
        | branched pre condition cases =>
          refine ih _ _ _ _ _ h (fun f hf => ?_)
          rcases List.mem_cons.mp hf with rfl | hf2
          · exact Or.inr (Or.inl ⟨pre, condition, cases, rfl, rfl,
              by simp [frameChildItems]⟩)
          · exact hfr f hf2
        | func tag stack =>
          simp only at h
          by_cases hcut : cutoffHit br tag depth
          · simp only [hcut, if_true] at h
            exact ih _ _ _ _ _ h hfr
          · simp only [hcut, Bool.false_eq_true, if_false] at h
            cases stack with
            | nil => exact ih _ _ _ _ _ h hfr
            | cons p rest =>
              obtain ⟨id, v0⟩ := p
              refine ih _ _ _ _ _ h (fun f hf => ?_)
              rcases List.mem_cons.mp hf with rfl | hf2
              · exact Or.inr (Or.inr ⟨tag, (id, v0) :: rest, rfl, by simp, rfl,
                  by simp [frameChildItems]⟩)
              · exact hfr f hf2
        | unknown => exact absurd h (by simp)
    | .reduce s =>
      simp only [loopN] at h
      cases frames with
      | nil =>
        simp only [Option.some.injEq, Except.ok.injEq, Prod.mk.injEq] at h
        exact ⟨c, h.2.symm, fun p hp => Or.inl hp⟩
      | cons frame rest =>
        simp only at h
        by_cases hlen :
            (frame.stringifiedValues ++ [s]).length == frame.values.length
        · simp only [hlen, if_true, Option.map_some'] at h
          have hfrOK : FrameOK frame := hfr frame (by simp)
          have hlenEq : (frame.stringifiedValues ++ [s]).length = frame.values.length := by
            simpa using hlen
          have hran := combinatorRan_of_frame frame (frame.stringifiedValues ++ [s])
            hfrOK hlenEq
          obtain ⟨c2, hc2, hkeys⟩ := ih _ _ _ _ _ h (fun f hf => hfr f (by simp [hf]))
          refine ⟨c2, hc2, fun p hp => ?_⟩
          rcases hkeys p hp with hin | hcomp
          · simp only [cacheSet, List.mem_cons] at hin
            rcases hin with rfl | hin2
            · exact Or.inr ⟨hfrOK.compositeKey, hran⟩
            · exact Or.inl hin2
          · exact Or.inr hcomp
        · simp only [hlen, Bool.false_eq_true, if_false] at h
          cases hget : frame.values[(frame.stringifiedValues ++ [s]).length]? with
          | some nextValue =>
            rw [hget] at h
            refine ih _ _ _ _ _ h (fun f hf => ?_)
            rcases List.mem_cons.mp hf with rfl | hf2
            · have hOK := hfr frame (by simp)
              rcases hOK with ⟨inner, h1, h2, h3⟩ | ⟨pre, condition, cases, h1, h2, h3⟩ |
                ⟨tag, stack, h1, hne, h2, h3⟩
              · exact Or.inl ⟨inner, h1, h2, h3⟩
              · exact Or.inr (Or.inl ⟨pre, condition, cases, h1, h2, h3⟩)
              · exact Or.inr (Or.inr ⟨tag, stack, h1, hne, h2, h3⟩)
            · exact hfr f (by simp [hf2])
          | none => rw [hget] at h; exact absurd h (by simp)

/-- Fuel monotonicity lifted to `stringifyValue`. -/
theorem stringifyValue_mono (n m : Nat) (v : Value) (br : Option BlockRecursionProps)
    (cache : Option Cache) r (hnm : n ≤ m)
    (h : stringifyValue n v br cache = some r) :
    stringifyValue m v br cache = some r := by
  unfold stringifyValue at h ⊢
  cases hl : loopN br n (.compute ⟨v, 0⟩) [] cache with
  | none => rw [hl] at h; simp at h
  | some r2 =>
    rw [loopN_mono_le br n m _ _ _ r2 hnm hl]
    rw [hl] at h
    exact h

/-- With no cache supplied, no cache ever appears in the result. -/
theorem loopN_none_cache (br : Option BlockRecursionProps) :
    ∀ (n : Nat) (st : MState) (frames : List Frame) stX copt,
    loopN br n st frames none = some (.ok (stX, copt)) → copt = none := by
  intro n
  induction n with
  | zero => intro st frames stX copt h; simp [loopN] at h
  | succ n ih =>
    intro st frames stX copt h
    match st with
    | .compute item =>
      obtain ⟨v, depth⟩ := item
      simp only [loopN] at h
      have hc : cacheHit none v = none := rfl
      rw [hc] at h
      cases v with
      | any s => exact ih _ _ _ _ h
      | data s => exact ih _ _ _ _ h
      | literal s => exact ih _ _ _ _ h
      | error s => exact ih _ _ _ _ h
      | builtin s => exact ih _ _ _ _ h
      | maybeError inner => exact ih _ _ _ _ h
      | branched pre condition cases => exact ih _ _ _ _ h
      | func tag stack =>
        simp only at h
        by_cases hcut : cutoffHit br tag depth
        · simp only [hcut, if_true] at h
          exact ih _ _ _ _ h
        · simp only [hcut, Bool.false_eq_true, if_false] at h
          cases stack with
          | nil => exact ih _ _ _ _ h
          | cons p rest =>
            obtain ⟨id, v0⟩ := p
            exact ih _ _ _ _ h
      | unknown => exact absurd h (by simp)
    | .reduce s =>
      simp only [loopN] at h
      cases frames with
      | nil =>
        simp only [Option.some.injEq, Except.ok.injEq, Prod.mk.injEq] at h
        exact h.2.symm
      | cons frame rest =>
        simp only at h
        by_cases hlen :
            (frame.stringifiedValues ++ [s]).length == frame.values.length
        · simp only [hlen, if_true, Option.map_none'] at h
          exact ih _ _ _ _ h
        · simp only [hlen, Bool.false_eq_true, if_false] at h
          cases hget : frame.values[(frame.stringifiedValues ++ [s]).length]? with
          | some nextValue =>
            rw [hget] at h
            exact ih _ _ _ _ h
          | none => rw [hget] at h; exact absurd h (by simp)

/-- `List.foldl` form of `Array.join` agrees with `String.intercalate.go`. -/
theorem joinSep_go (sep : String) :
    ∀ (xs : List String) (acc : String),
    List.foldl (fun acc s => acc ++ sep ++ s) acc xs = String.intercalate.go acc sep xs := by
  intro xs
  induction xs with
  | nil => intro acc; rfl
  | cons x rest ih =>
    intro acc
    simp only [List.foldl_cons, String.intercalate.go, ih]

/-- The JavaScript `Array.join` equals `String.intercalate`. -/
theorem joinSep_eq_intercalate (sep : String) (xs : List String) :
    joinSep sep xs = String.intercalate sep xs := by
  cases xs with
  | nil => rfl
  | cons x rest =>
    simp only [joinSep, String.intercalate, joinSep_go]

/-- C1: for a value graph rooted at a `FuncValue` of tag `t` whose captured
environment transitively contains another `FuncValue` of the same tag,
`stringifyValue` with cutoff `(t, k)` terminates with the structural
rendering; a tag-`t` closure reached at depth `k` renders as the
placeholder `"Fn" + t` without its environment being visited; and starting
at a depth at most `k`, no subcomputation ever runs at depth beyond `k`. -/
theorem c1_cutoff_termination (t k : Nat) (stack : List (String × Value))
    (hsealed : Value.sealed (.func t stack) = true)
    (hself : containsFuncTagStack t stack = true) :
    (∃ n s, stringifyValue n (.func t stack) (some ⟨t, k⟩) none = some (.ok (s, none)) ∧
      stringifySpec (some ⟨t, k⟩) 0 (.func t stack) = some s) ∧
    (∀ stack2, stringifySpec (some ⟨t, k⟩) k (.func t stack2) =
      some ("Fn" ++ Nat.repr t)) ∧
    (∀ (w : Value) (d : Nat), d ≤ k → maxDepthUsed (some ⟨t, k⟩) d w ≤ k) := by
  refine ⟨?_, ?_, fun w d hd => maxDepthUsed_le t k w d hd⟩
  · have hs := spec_sealed_isSome (some ⟨t, k⟩) _ hsealed 0
    rw [Option.isSome_iff_exists] at hs
    obtain ⟨s, hs⟩ := hs
    obtain ⟨n, hn⟩ := (stringifyValue_sim (some ⟨t, k⟩) (.func t stack)).1 s hs
    exact ⟨n, s, hn, hs⟩
  · intro stack2
    have hcut : cutoffHit (some ⟨t, k⟩) t k = true := by simp [cutoffHit]
    simp [stringifySpec, hcut]

/-- Witness for C1 at the self-referential closure of the spec's scenario 6. -/
theorem c1_witness :
    ∃ n s, stringifyValue n (.func 9 [("r", .func 9 [("r", .literal "0")])])
      (some ⟨9, 1⟩) none = some (.ok (s, none)) ∧
    stringifySpec (some ⟨9, 1⟩) 0 (.func 9 [("r", .func 9 [("r", .literal "0")])]) =
      some s :=
  (c1_cutoff_termination 9 1 [("r", .func 9 [("r", .literal "0")])]
    (by decide) (by decide)).1

/-- C2: on a sealed graph, with no cutoff or a cutoff whose `maxDepth` is
never reached, `stringifyValue` returns the same string on a fresh empty
cache as with no cache at all. -/
theorem c2_cache_transparency (v : Value) (br : Option BlockRecursionProps)
    (hsealed : Value.sealed v = true) (hnc : noCutoffHit br 0 v = true) :
    ∃ n s, (∃ c2, stringifyValue n v br (some []) = some (.ok (s, some c2))) ∧
      stringifyValue n v br none = some (.ok (s, none)) := by
  have hs0 := spec_sealed_isSome none v hsealed 0
  rw [Option.isSome_iff_exists] at hs0
  obtain ⟨s, hs⟩ := hs0
  have hbr : stringifySpec br 0 v = some s := by
    rw [spec_nocutoff br v 0 hnc]
    exact hs
  obtain ⟨n1, c2, h1⟩ := stringifyValue_cached br v s hnc hs
  obtain ⟨n2, h2⟩ := (stringifyValue_sim br v).1 s hbr
  refine ⟨max n1 n2, s, ⟨c2, ?_⟩, ?_⟩
  · exact stringifyValue_mono n1 (max n1 n2) v br (some []) _ (Nat.le_max_left n1 n2) h1
  · exact stringifyValue_mono n2 (max n1 n2) v br none _ (Nat.le_max_right n1 n2) h2

/-- Witness for C2 at a small composite graph, with no cutoff. -/
theorem c2_witness :
    ∃ n s, (∃ c2, stringifyValue n (.maybeError (.literal "3")) none (some []) =
        some (.ok (s, some c2))) ∧
      stringifyValue n (.maybeError (.literal "3")) none none = some (.ok (s, none)) :=
  c2_cache_transparency (.maybeError (.literal "3")) none (by decide) (by decide)

/-- C3 counterexample: the cutoff check runs before the empty-environment
check, so an empty-environment `FuncValue` whose tag and depth match the
cutoff renders as `"Fn7"`, not `"Fn7[]"` as the claim requires. -/
theorem c3_counterexample :
    stringifyValue 2 (.func 7 []) (some ⟨7, 0⟩) none = some (.ok ("Fn7", none)) ∧
    "Fn7" ≠ "Fn7[]" := by
  exact ⟨rfl, by decide⟩

/-- C3 amended: a `FuncValue` with an empty captured environment renders as
`"Fn" + tag + "[]"` for every cutoff configuration that does not match it
(no cutoff, a different tag, or a different depth); a matching cutoff takes
precedence and yields the bracket-less placeholder. -/
theorem c3_empty_env_func (br : Option BlockRecursionProps) (tag : Nat)
    (h : cutoffHit br tag 0 = false) :
    stringifyValue 2 (.func tag []) br none =
      some (.ok ("Fn" ++ Nat.repr tag ++ "[]", none)) := by
  simp [stringifyValue, loopN, cacheHit, h]

/-- Witness for C3 amended at tag 7 with no cutoff. -/
theorem c3_witness :
    stringifyValue 2 (.func 7 []) none none = some (.ok ("Fn7[]", none)) :=
  c3_empty_env_func none 7 rfl

/-- C4 counterexample: a cache that maps the value to the empty string is
treated as a miss (`if (cached)` is falsy on `""`), so the engine
recomputes and returns `"Any"` instead of the cached `""`. -/
theorem c4_counterexample :
    stringifyValue 2 (.any "Any") none (some [(.any "Any", "")]) =
      some (.ok ("Any", some [(.any "Any", "")])) ∧
    "Any" ≠ "" := by
  exact ⟨rfl, by decide⟩

/-- C4 amended: if the supplied cache maps the value to a non-empty string
`s`, `stringifyValue` returns `s` directly — in a constant two machine
steps, whatever the value's size, so no child is visited. -/
theorem c4_cached_hit (v : Value) (br : Option BlockRecursionProps) (c : Cache)
    (s : String) (hfound : cacheGet c v = some s) (hne : s ≠ "") :
    stringifyValue 2 v br (some c) = some (.ok (s, some c)) := by
  have hh : cacheHit (some c) v = some s := by
    simp [cacheHit, hfound, hne]
  simp [stringifyValue, loopN, hh]

/-- Witness for C4 amended at a pre-seeded cache. -/
theorem c4_witness :
    stringifyValue 2 (.any "AnyLeaf") none (some [(.any "AnyLeaf", "X")]) =
      some (.ok ("X", some [(.any "AnyLeaf", "X")])) :=
  c4_cached_hit (.any "AnyLeaf") none [(.any "AnyLeaf", "X")] "X" rfl (by decide)

/-- C5: `stringifyStackValues` renders each binding as
`id + ": " + stringifyValue(v, blockRecursion, cache)` — the identical
engine with the same cutoff, the one cache threaded through all bindings in
original order — and brackets the comma-joined items. -/
theorem c5_stack_values :
    (∀ n br c, stringifyStackValues n [] br c = some (.ok ("[]", c))) ∧
    (∀ n id v rest br c s c1,
      stringifyValue n v (some br) c = some (.ok (s, c1)) →
      stackItems n ((id, v) :: rest) br c =
        (stackItems n rest br c1).map
          (Except.map (fun p => ((id ++ ": " ++ s) :: p.1, p.2)))) ∧
    (∀ n id v rest br c s c1 items c2,
      stringifyValue n v (some br) c = some (.ok (s, c1)) →
      stackItems n rest br c1 = some (.ok (items, c2)) →
      stringifyStackValues n ((id, v) :: rest) br c =
        some (.ok ("[" ++ joinSep ", " ((id ++ ": " ++ s) :: items) ++ "]", c2))) := by
  refine ⟨fun n br c => rfl, ?_, ?_⟩
  · intro n id v rest br c s c1 h
    simp only [stackItems, h]
    cases stackItems n rest br c1 with
    | none => rfl
    | some r =>
      cases r with
      | error e => rfl
      | ok p => rfl
  · intro n id v rest br c s c1 items c2 h hrest
    simp only [stringifyStackValues, stackItems, h, hrest]

/-- Witness for C5 at a one-binding environment. -/
theorem c5_witness :
    stringifyStackValues 3 [("x", .literal "1")] ⟨0, 5⟩ (some []) =
      some (.ok ("[x: 1]", some [])) :=
  c5_stack_values.2.2 3 "x" (.literal "1") [] ⟨0, 5⟩ (some []) "1" (some []) []
    (some []) rfl rfl

/-- C6: `stringifyCall` is plain formatting — the callee's own rendering,
an open parenthesis, the arguments' own renderings joined by `", "`, and a
close parenthesis; it depends only on each operand's own textual form (it
takes no cutoff and no cache). -/
theorem c6_stringify_call :
    (∀ (ts : Value → String) (fn : Value) (args : List Value),
      stringifyCall ts fn args =
        ts fn ++ "(" ++ String.intercalate ", " (args.map ts) ++ ")") ∧
    (∀ (ts ts2 : Value → String) (fn : Value) (args : List Value),
      ts fn = ts2 fn → (∀ a ∈ args, ts a = ts2 a) →
      stringifyCall ts fn args = stringifyCall ts2 fn args) := by
  constructor
  · intro ts fn args
    simp [stringifyCall, joinSep_eq_intercalate]
  · intro ts ts2 fn args hfn hargs
    simp only [stringifyCall, hfn]
    rw [List.map_congr_left hargs]

/-- Witness for C6 at a one-argument call. -/
theorem c6_witness :
    stringifyCall (fun _ => "fn") (.any "f") [.any "a"] = "fn(fn)" := by
  have h2 := c6_stringify_call.2 (fun _ => "fn") (fun _ => "fn") (.any "f") [.any "a"]
    rfl (fun a _ => rfl)
  have h1 := c6_stringify_call.1 (fun _ => "fn") (.any "f") [.any "a"]
  rw [h2, h1]
  decide

/-- C7: a frame's children are recorded at the parent's depth in every case
except the captured bindings of a `FuncValue` whose tag equals the cutoff's
blocked tag, which are recorded at parent depth + 1. -/
theorem c7_child_depths (t k depth : Nat) :
    (∀ inner : Value, ∀ it ∈ frameChildItems (some ⟨t, k⟩) (.maybeError inner) depth,
      it.depth = depth) ∧
    (∀ (pre : String) (condition : Value) (cases : List Value),
      ∀ it ∈ frameChildItems (some ⟨t, k⟩) (.branched pre condition cases) depth,
      it.depth = depth) ∧
    (∀ (tag : Nat) (stack : List (String × Value)), tag ≠ t →
      ∀ it ∈ frameChildItems (some ⟨t, k⟩) (.func tag stack) depth,
      it.depth = depth) ∧
    (∀ stack : List (String × Value),
      ∀ it ∈ frameChildItems (some ⟨t, k⟩) (.func t stack) depth,
      it.depth = depth + 1) := by
  refine ⟨?_, ?_, ?_, ?_⟩
  · intro inner it hit
    simp only [frameChildItems, List.mem_singleton] at hit
    rw [hit]
  · intro pre condition cases it hit
    simp only [frameChildItems, List.mem_cons] at hit
    rcases hit with rfl | hit2
    · rfl
    · obtain ⟨c, _, rfl⟩ := List.mem_map.mp hit2
      rfl
  · intro tag stack hne it hit
    have hm : matchesTag (some ⟨t, k⟩) tag = false := by
      simp only [matchesTag, beq_eq_false_iff_ne, ne_eq]
      exact hne
    simp only [frameChildItems, hm, Bool.false_eq_true, if_false] at hit
    obtain ⟨p, _, rfl⟩ := List.mem_map.mp hit
    rfl
  · intro stack it hit
    have hm : matchesTag (some ⟨t, k⟩) t = true := by simp [matchesTag]
    simp only [frameChildItems, hm, if_true] at hit
    obtain ⟨p, _, rfl⟩ := List.mem_map.mp hit
    rfl

/-- Witness for C7: a non-matching closure's child keeps depth 2, a
matching one's child moves to depth 3. -/
theorem c7_witness :
    (⟨Value.any "a", 2⟩ : ComputeItem).depth = 2 ∧
    (⟨Value.any "a", 3⟩ : ComputeItem).depth = 3 := by
  constructor
  · exact (c7_child_depths 5 3 2).2.2.1 4 [("x", .any "a")] (by decide)
      ⟨Value.any "a", 2⟩ (by simp [frameChildItems, matchesTag])
  · exact (c7_child_depths 5 3 2).2.2.2 [("x", .any "a")]
      ⟨Value.any "a", 3⟩ (by simp [frameChildItems, matchesTag])

/-- C8: `stringifyValue` with no cache is deterministic — any two finished
runs on the same graph return the same result, independently of the fuel
(the only artifact of the embedding outside the source's arguments). -/
theorem c8_deterministic (v : Value) (n1 n2 : Nat)
    (r1 r2 : Except String (String × Option Cache))
    (h1 : stringifyValue n1 v none none = some r1)
    (h2 : stringifyValue n2 v none none = some r2) : r1 = r2 := by
  rcases Nat.le_total n1 n2 with h | h
  · have hm := stringifyValue_mono n1 n2 v none none r1 h h1
    rw [hm] at h2
    exact Option.some.inj h2
  · have hm := stringifyValue_mono n2 n1 v none none r2 h h2
    rw [hm] at h1
    exact (Option.some.inj h1).symm

/-- Witness for C8 at two different fuels. -/
theorem c8_witness :
    (Except.ok ("3", (none : Option Cache)) : Except String (String × Option Cache)) =
      .ok ("3", none) :=
  c8_deterministic (.literal "3") 2 3 (.ok ("3", none)) (.ok ("3", none)) rfl rfl

/-- C9 counterexample: a non-sealed value hidden behind the recursion
cutoff is never visited, so the run returns a string even though the input
graph contains a value that is none of the eight variants — refuting the
claimed "raises iff the input graph contains such a value". -/
theorem c9_counterexample :
    stringifyValue 2 (.func 5 [("x", .unknown)]) (some ⟨5, 0⟩) none =
      some (.ok ("Fn5", none)) ∧
    Value.sealed (.func 5 [("x", .unknown)]) = false := by
  exact ⟨rfl, rfl⟩

/-- C9 amended: with no cache, `stringifyValue` raises exactly when the
traversal reaches a value outside the eight sealed variants (equivalently,
when the structural rendering is undefined — a value skipped by the cutoff
does not count); the only raise is `"unhandled value type"` (the machine
cannot end without a reduce); and on a graph built only from the eight
variants it always halts in a reduce with an empty frame stack and returns
that string. -/
theorem c9_error_iff (v : Value) (br : Option BlockRecursionProps) :
    ((∃ n e, stringifyValue n v br none = some (.error e)) ↔
      stringifySpec br 0 v = none) ∧
    (∀ n e, stringifyValue n v br none = some (.error e) →
      e = "unhandled value type") ∧
    (Value.sealed v = true →
      ∃ n s, stringifyValue n v br none = some (.ok (s, none)) ∧
        stringifySpec br 0 v = some s) := by
  have herr : ∀ n e, stringifyValue n v br none = some (.error e) →
      e = "unhandled value type" := by
    intro n e h
    unfold stringifyValue at h
    cases hl : loopN br n (.compute ⟨v, 0⟩) [] none with
    | none => rw [hl] at h; simp at h
    | some r =>
      rw [hl] at h
      obtain ⟨hok, herr2⟩ := loopN_exit br n _ _ _ r hl
      cases r with
      | error e2 =>
        simp only [Option.some.injEq, Except.error.injEq] at h
        rw [← h]
        exact herr2 e2 rfl
      | ok p =>
        obtain ⟨st2, c2⟩ := p
        obtain ⟨s, rfl⟩ := hok st2 c2 rfl
        simp at h
  refine ⟨⟨?_, ?_⟩, herr, ?_⟩
  · rintro ⟨n, e, h⟩
    cases hspec : stringifySpec br 0 v with
    | none => rfl
    | some s =>
      obtain ⟨m, hm⟩ := (stringifyValue_sim br v).1 s hspec
      have ha := stringifyValue_mono n (max n m) v br none _ (Nat.le_max_left n m) h
      have hb := stringifyValue_mono m (max n m) v br none _ (Nat.le_max_right n m) hm
      rw [ha] at hb
      simp at hb
  · intro hspec
    obtain ⟨n, hn⟩ := (stringifyValue_sim br v).2 hspec
    exact ⟨n, _, hn⟩
  · intro hsealed
    have hs := spec_sealed_isSome br v hsealed 0
    rw [Option.isSome_iff_exists] at hs
    obtain ⟨s, hs⟩ := hs
    obtain ⟨n, hn⟩ := (stringifyValue_sim br v).1 s hs
    exact ⟨n, s, hn, hs⟩

/-- Witness for C9 amended at a sealed leaf. -/
theorem c9_witness :
    ∃ n s, stringifyValue n (.literal "3") none none = some (.ok (s, none)) ∧
      stringifySpec none 0 (.literal "3") = some s :=
  (c9_error_iff (.literal "3") none).2.2 rfl

/-- C10: the supplied cache is the only state threaded through a run.
Every binding it gains is keyed by a composite value — a `MaybeErrorValue`,
a `BranchedValue`, or a `FuncValue` with a non-empty expanded environment —
and holds exactly that owner's combinator output over a full vector of
child strings, so the combinator actually ran; in particular a `FuncValue`
entry always stores the bracketed form, never the recursion-cutoff
placeholder `"Fn" + tag` (leaves never own frames, so their strings are
never cached either).  With no cache supplied, no cache comes into
existence. -/
theorem c10_cache_insertions (n : Nat) (v : Value) (br : Option BlockRecursionProps)
    (c : Cache) (s : String) (copt : Option Cache)
    (h : stringifyValue n v br (some c) = some (.ok (s, copt))) :
    (∃ c2, copt = some c2 ∧ ∀ p ∈ c2, p ∈ c ∨
      (CompositeKey p.1 ∧ CombinatorRan p.1 p.2 ∧
        ∀ tag stack, p.1 = .func tag stack → p.2 ≠ "Fn" ++ Nat.repr tag)) ∧
    (∀ (m : Nat) (s2 : String) (copt2 : Option Cache),
      stringifyValue m v br none = some (.ok (s2, copt2)) → copt2 = none) := by
  constructor
  · unfold stringifyValue at h
    cases hl : loopN br n (.compute ⟨v, 0⟩) [] (some c) with
    | none => rw [hl] at h; simp at h
    | some r =>
      rw [hl] at h
      cases r with
      | error e => simp at h
      | ok p =>
        obtain ⟨st2, c2o⟩ := p
        obtain ⟨c2, hc2, hkeys⟩ := loopN_cache_keys br n _ _ c st2 c2o hl
          (fun f hf => absurd hf (List.not_mem_nil f))
        cases st2 with
        | reduce s2 =>
          simp only [Option.some.injEq, Except.ok.injEq, Prod.mk.injEq] at h
          rw [← h.2]
          refine ⟨c2, hc2, fun p hp => ?_⟩
          rcases hkeys p hp with hin | ⟨hck, hran⟩
          · exact Or.inl hin
          · refine Or.inr ⟨hck, hran, fun tag stack hfn => ?_⟩
            rcases hran with ⟨inner, x, hk, _⟩ | ⟨pre, condition, cases, x, ys, hk, _, _⟩ |
              ⟨tag2, stack2, strs, hk, _, _, hs2⟩
            · rw [hfn] at hk; exact absurd hk (by simp)
            · rw [hfn] at hk; exact absurd hk (by simp)
            · rw [hfn] at hk
              simp only [Value.func.injEq] at hk
              rw [hs2, ← hk.1]
              exact func_entry_ne_placeholder tag _
        | compute it => simp at h
  · intro m s2 copt2 h2
    unfold stringifyValue at h2
    cases hl : loopN br m (.compute ⟨v, 0⟩) [] none with
    | none => rw [hl] at h2; simp at h2
    | some r =>
      rw [hl] at h2
      cases r with
      | error e => simp at h2
      | ok p =>
        obtain ⟨st2, c2o⟩ := p
        have hnone := loopN_none_cache br m _ _ st2 c2o hl
        cases st2 with
        | reduce s3 =>
          simp only [Option.some.injEq, Except.ok.injEq, Prod.mk.injEq] at h2
          rw [← h2.2]
          exact hnone
        | compute it => simp at h2

/-- Witness for C10 at a `MaybeErrorValue` over a literal, on a fresh
cache. -/
theorem c10_witness :
    ∃ c2, (some [((Value.maybeError (.literal "1") : Value), "(1 | Error)")] :
        Option Cache) = some c2 ∧
      ∀ p ∈ c2, p ∈ ([] : Cache) ∨
        (CompositeKey p.1 ∧ CombinatorRan p.1 p.2 ∧
          ∀ tag stack, p.1 = .func tag stack → p.2 ≠ "Fn" ++ Nat.repr tag) :=
  (c10_cache_insertions 4 (.maybeError (.literal "1")) none [] "(1 | Error)"
    (some [(.maybeError (.literal "1"), "(1 | Error)")]) rfl).1

end HeliosIR
